import Mathlib

/-!
Verification of the pairwise-likelihood and maximum-spanning-tree pipeline of
`utils/tree/load_parameters.py` (HazyResearch/hypgcn).

The Python source is shallowly embedded: numpy float values become real numbers
(or, where the claims allow, an arbitrary linearly ordered type so that the
embedded code stays executable), numpy integer indexing keeps its wraparound
semantics for negative indices, and every Python exception becomes an
`Except String` error value.  `networkx.maximum_spanning_tree` is embedded as
Kruskal's algorithm on the edges sorted by decreasing weight, which is the
algorithm the library runs; its correctness (spanning, edge count, weight
maximality) is proved here rather than assumed.
-/

namespace HypGCN

instance {ε α : Type} [DecidableEq ε] [DecidableEq α] : DecidableEq (Except ε α) := fun
  | .ok a, .ok b =>
      if h : a = b then .isTrue (by rw [h]) else .isFalse (by intro hc; cases hc; exact h rfl)
  | .error a, .error b =>
      if h : a = b then .isTrue (by rw [h]) else .isFalse (by intro hc; cases hc; exact h rfl)
  | .ok _, .error _ => .isFalse (by intro hc; cases hc)
  | .error _, .ok _ => .isFalse (by intro hc; cases hc)

/-- The error part of an `Except` value, if any. -/
def errPart {ε α : Type} : Except ε α → Option ε
  | .error e => some e
  | .ok _ => none

/-- The message of the `ValueError` raised by `compute_log_likelihood` on a
length mismatch. -/
def lengthErrMsg : String := "ValueError: Sequences must be of equal length."

/-- The message of the `IndexError` raised by numpy on an index outside
`[-4, 4)` for an axis of size 4. -/
def idxErrMsg : String := "IndexError: index out of bounds for axis with size 4"

/-- A symbol numpy accepts as an index into an axis of size 4 (negative
symbols wrap around silently). -/
def inRange4 (z : ℤ) : Prop := -4 ≤ z ∧ z < 4

instance : DecidablePred inRange4 := fun _ => inferInstanceAs (Decidable (_ ∧ _))

/-- The effective index numpy uses for an accepted symbol: `z` itself when
`0 ≤ z < 4`, `z + 4` when `-4 ≤ z < 0`; uniformly, `z mod 4`. -/
def finOfZ (z : ℤ) : Fin 4 :=
  ⟨(z % 4).toNat, by
    have h1 := Int.emod_nonneg z (by norm_num : (4:ℤ) ≠ 0)
    have h2 := Int.emod_lt_of_pos z (by norm_num : (0:ℤ) < 4)
    omega⟩

/-- numpy indexing into an axis of size 4: indices in `[0, 4)` are used as is,
indices in `[-4, 0)` wrap around (numpy negative indexing), anything else
raises `IndexError`. -/
def npIdx4 (z : ℤ) : Except String (Fin 4) :=
  if h : 0 ≤ z ∧ z < 4 then .ok ⟨z.toNat, by omega⟩
  else if h' : -4 ≤ z ∧ z < 0 then .ok ⟨(z + 4).toNat, by omega⟩
  else .error idxErrMsg

/-- Abstract substitution-model interface (the spec's SubstitutionModel
contract): a branch-length optimizer over a 4x4 substitution-count matrix and
a transition matrix for a given branch length.  `T` is the branch-length type
and `α` the type of transition-matrix entries. -/
structure SubstModel (T α : Type) where
  optimize_t : (Fin 4 → Fin 4 → ℕ) → T
  trans_matrix : T → Fin 4 → Fin 4 → α

/-- The dictionary `bases = {'A': 0, 'C': 1, 'G': 2, 'T': 3}`. -/
def bases (c : Char) : Option (Fin 4) :=
  if c = 'A' then some 0
  else if c = 'C' then some 1
  else if c = 'G' then some 2
  else if c = 'T' then some 3
  else none

/-- One row (site position `j` of sequence `s`) of the one-hot tensor built by
`one_hot`: all zeros unless the position holds a known nucleotide. -/
def oneHotRow (s : List Char) (j : ℕ) : Fin 4 → ℕ :=
  fun b => match s.drop j with
    | [] => 0
    | c :: _ => match bases c with
      | some i => if b = i then 1 else 0
      | none => 0

/-- `max(len(seq) for seq in sequences)` (0 for the empty input, where Python
would raise). -/
def max_length (seqs : List (List Char)) : ℕ := (seqs.map List.length).foldl max 0

/-- `one_hot(sequences)`: an array of shape (number of sequences, max length, 4);
positions holding an unknown character, and padding positions beyond a
sequence's length, stay all-zero. -/
def one_hot (seqs : List (List Char)) : List (List (Fin 4 → ℕ)) :=
  seqs.map (fun s => (List.range (max_length seqs)).map (fun j => oneHotRow s j))

/-- `np.argmax` along the last axis of the one-hot tensor: the first index
attaining the maximum. -/
def npArgmax4 (v : Fin 4 → ℕ) : ℤ :=
  (((([1, 2, 3] : List (Fin 4))).foldl (fun best i => if v best < v i then i else best) 0).val : ℤ)

/-- `np.argmax(encoded_seq, axis=-1)`: the categorical (integer-coded) form of
the one-hot tensor, the `features_reduced` of `generate_node_features`. -/
def encodeSeqs (seqs : List (List Char)) : List (List ℤ) :=
  (one_hot seqs).map (fun row => row.map npArgmax4)

/-- Increment `S_ij[i, j]` by one (`S_ij[i, j] += 1`). -/
def bumpS (S : Fin 4 → Fin 4 → ℕ) (i j : Fin 4) : Fin 4 → Fin 4 → ℕ :=
  fun a b => if a = i ∧ b = j then S a b + 1 else S a b

/-- The substitution-count loop of `compute_log_likelihood`:
`for i, j in zip(seq1, seq2): S_ij[i, j] += 1`, with numpy index semantics on
the (integer) symbols. -/
def countSubs (pairs : List (ℤ × ℤ)) : Except String (Fin 4 → Fin 4 → ℕ) :=
  pairs.foldlM
    (fun S p => do
      let i ← npIdx4 p.1
      let j ← npIdx4 p.2
      pure (bumpS S i j))
    (fun _ _ => 0)

/-- `compute_log_likelihood(seq1, seq2, model)`.  The sequences are integer
coded; `lg` is the embedding of `np.log` (instantiated with `Real.log` in the
pipeline), kept abstract so that the function stays executable on decidable
carriers.  Raises `ValueError` when the lengths differ, propagates the
`IndexError` of out-of-range symbols, and otherwise returns the site-wise sum
of `lg (P_t[i, j])`. -/
def compute_log_likelihood {T α β : Type} [AddCommMonoid β] (model : SubstModel T α)
    (lg : α → β) (seq1 seq2 : List ℤ) : Except String β :=
  if seq1.length ≠ seq2.length then .error lengthErrMsg
  else do
    let S ← countSubs (seq1.zip seq2)
    let t_opt := model.optimize_t S
    let P_t := model.trans_matrix t_opt
    (seq1.zip seq2).foldlM
      (fun acc p => do
        let i ← npIdx4 p.1
        let j ← npIdx4 p.2
        pure (acc + lg (P_t i j)))
      0

/-- A square matrix of entries in `γ` together with its dimension (a numpy
array of shape `(n, n)`; entries outside the shape are a modelling artifact
fixed to the function's value there and never read by the embedded code). -/
structure NMat (γ : Type) where
  n : ℕ
  entry : ℕ → ℕ → γ

/-- One cell of the `adjacency_matrix` filled by
`build_weighted_adjacency_matrix` before the `np.exp`: the log-likelihood for
`i ≠ j` and `0` on the diagonal. -/
def pairLL {T α β : Type} [AddCommMonoid β] (model : SubstModel T α) (lg : α → β)
    (seqs : List (List ℤ)) (i j : ℕ) : Except String β :=
  if i = j then .ok 0
  else compute_log_likelihood model lg (seqs.getD i []) (seqs.getD j [])

/-- The row-major enumeration of the index square `[0, n) × [0, n)` — the
iteration order of the nested `for i ... for j ...` loops. -/
def rectangle (n : ℕ) : List (ℕ × ℕ) :=
  (List.range n).flatMap (fun i => (List.range n).map (fun j => (i, j)))

/-- The `adjacency_matrix` of log-likelihoods assembled by
`build_weighted_adjacency_matrix` before the final `np.exp`; the first
exception raised by any cell (in loop order) propagates. -/
def loglik_matrix {T α β : Type} [AddCommMonoid β] (model : SubstModel T α) (lg : α → β)
    (seqs : List (List ℤ)) : Except String (NMat β) :=
  match (rectangle seqs.length).findSome? (fun p => errPart (pairLL model lg seqs p.1 p.2)) with
  | some e => .error e
  | none => .ok ⟨seqs.length, fun i j =>
      if i < seqs.length ∧ j < seqs.length
      then (pairLL model lg seqs i j).toOption.getD 0 else 0⟩

/-- `build_weighted_adjacency_matrix(one_hot_sequences, model)`: the
log-likelihood matrix passed through the elementwise exponential
(`return np.exp(adjacency_matrix)`); `expf` is the embedding of `np.exp`,
instantiated with `Real.exp` in the pipeline. -/
def build_weighted_adjacency_matrix {T α β γ : Type} [AddCommMonoid β] (model : SubstModel T α)
    (lg : α → β) (expf : β → γ) (seqs : List (List ℤ)) : Except String (NMat γ) :=
  (loglik_matrix model lg seqs).map (fun M => ⟨M.n, fun i j => expf (M.entry i j)⟩)

/-- Unordered-pair key of an undirected networkx edge. -/
def normPair (u v : ℕ) : ℕ × ℕ := (min u v, max u v)

/-- `G.add_edge(u, v, weight=w)` on an undirected networkx graph: update the
weight if the unordered pair is already present, otherwise append the edge. -/
def addEdge {α : Type} (G : List ((ℕ × ℕ) × α)) (u v : ℕ) (w : α) : List ((ℕ × ℕ) × α) :=
  if (G.map Prod.fst).contains (normPair u v) then
    G.map (fun ent => if ent.1 = normPair u v then (ent.1, w) else ent)
  else G ++ [(normPair u v, w)]

/-- One iteration of `get_mst`'s graph-building double loop: skip the edge if
the matrix entry is the sentinel `-inf` (here `⊥`), otherwise add it. -/
def stepG {α : Type} (W : NMat (WithBot α)) (G : List ((ℕ × ℕ) × α)) (p : ℕ × ℕ) :
    List ((ℕ × ℕ) × α) :=
  match W.entry p.1 p.2 with
  | ⊥ => G
  | (w : α) => addEdge G p.1 p.2 w

/-- The weighted undirected graph built by `get_mst`'s double loop over
`[0, W.shape[0] - 1)`: entries equal to the sentinel `-inf` (here `⊥`) are
skipped, all others — self-loops included, since the loop has no `i != j`
check — are added with the matrix entry as weight. -/
def graphOf {α : Type} (W : NMat (WithBot α)) : List ((ℕ × ℕ) × α) :=
  (rectangle (W.n - 1)).foldl (stepG W) []

/-- Weight-descending comparison on weighted edges, the order in which
`networkx.maximum_spanning_tree` (Kruskal) processes them. -/
def wtGE {α : Type} [LinearOrder α] (x y : (ℕ × ℕ) × α) : Prop := y.2 ≤ x.2

instance {α : Type} [LinearOrder α] : DecidableRel (@wtGE α _) :=
  fun x y => inferInstanceAs (Decidable (y.2 ≤ x.2))

instance {α : Type} [LinearOrder α] : IsTotal ((ℕ × ℕ) × α) wtGE :=
  ⟨fun a b => le_total b.2 a.2⟩

instance {α : Type} [LinearOrder α] : IsTrans ((ℕ × ℕ) × α) wtGE :=
  ⟨fun _ _ _ h1 h2 => le_trans h2 h1⟩

/-- One union-find step of Kruskal: skip the edge if its endpoints share a
component representative, otherwise merge the two components and keep the
edge. -/
def kruskalStep {α : Type} (st : (ℕ → ℕ) × List ((ℕ × ℕ) × α)) (e : (ℕ × ℕ) × α) :
    (ℕ → ℕ) × List ((ℕ × ℕ) × α) :=
  if st.1 e.1.1 = st.1 e.1.2 then st
  else (fun w => if st.1 w = st.1 e.1.2 then st.1 e.1.1 else st.1 w, st.2 ++ [e])

/-- Kruskal's maximum-spanning-tree algorithm, as run by
`networkx.maximum_spanning_tree`: process the edges in order of decreasing
weight, keeping each edge whose endpoints are not yet connected.  Returns the
kept edges with their weights, in pick order. -/
def kruskal {α : Type} [LinearOrder α] (G : List ((ℕ × ℕ) × α)) : List ((ℕ × ℕ) × α) :=
  ((List.insertionSort wtGE G).foldl kruskalStep (id, [])).2

/-- `get_mst(weighted_adj_matrix)`: build the graph over indices
`[0, W.shape[0] - 1)` and return the edges of its maximum spanning tree. -/
def get_mst {α : Type} [LinearOrder α] (W : NMat (WithBot α)) : List (ℕ × ℕ) :=
  (kruskal (graphOf W)).map Prod.fst

/-- Write a single cell of a matrix (`adj_matrix[u, v] = x`). -/
def setEntry (M : ℕ → ℕ → ℕ) (u v x : ℕ) : ℕ → ℕ → ℕ :=
  fun a b => if a = u ∧ b = v then x else M a b

/-- `generate_unweighted_adj_matrix(mst, num_nodes)`.  For an empty edge list
`np.array(list(mst.edges)).T` is one-dimensional, so reading
`edges.shape[1]` raises `IndexError`; a node index at or beyond `num_nodes`
raises `IndexError` on the assignment into the `num_nodes × num_nodes` zero
matrix.  Otherwise each edge sets the two symmetric cells to 1. -/
def generate_unweighted_adj_matrix (edges : List (ℕ × ℕ)) (num_nodes : ℕ) :
    Except String (ℕ → ℕ → ℕ) :=
  if edges.isEmpty then .error "IndexError: tuple index out of range"
  else edges.foldlM
    (fun M e =>
      if e.1 < num_nodes ∧ e.2 < num_nodes then
        .ok (setEntry (setEntry M e.1 e.2 1) e.2 e.1 1)
      else .error "IndexError: node index out of bounds for adjacency matrix")
    (fun _ _ => 0)

/-- Modelled from the spec: `create_tree` (random tree topology generator)
and `simulate_seq` (random sequence simulator) are repository code not under
`src/`; the spec describes them as producing a randomly generated tree and
discrete nucleotide sequences over `{A,C,G,T}` from it.  Their composite
effect — drawing a fresh random batch of raw sequences on each invocation —
is modelled by `draw` applied to the current state of the random source,
which each invocation advances. -/
structure RandomSim where
  draw : ℕ → List (List Char)

/-- Modelled from the spec: the `JukesCantor` substitution model class is
repository code not under `src/`.  Per the spec it exposes the Jukes-Cantor
transition matrix (rows summing to 1, equal off-diagonal entries, identity at
`t = 0`) for rate `alpha`, and a maximum-likelihood branch-length estimate
from a substitution-count matrix, clamped to be non-negative.  No claim
depends on the numeric values produced here. -/
noncomputable def JukesCantor (alpha : ℝ) : SubstModel ℝ ℝ where
  optimize_t S :=
    let total : ℕ := ∑ i, ∑ j, S i j
    let offdiag : ℕ := ∑ i, ∑ j, if i ≠ j then S i j else 0
    if total = 0 then 0
    else
      let p : ℝ := (offdiag : ℝ) / (total : ℝ)
      if p < 3 / 4 then max 0 (-(3 / (4 * alpha)) * Real.log (1 - 4 * p / 3)) else 0
  trans_matrix t i j :=
    if i = j then 1 / 4 + 3 / 4 * Real.exp (-(4 * alpha * t))
    else 1 / 4 - 1 / 4 * Real.exp (-(4 * alpha * t))

/-- `generate_node_features(n_leaves, alpha)`: simulate sequences on a fresh
random tree (one draw of the random source, see `RandomSim`), one-hot encode
them and reduce with `argmax` to the categorical form.  Returns the features
and the advanced random state. -/
def generate_node_features (sim : RandomSim) (n_leaves : ℕ) (alpha : ℝ) (s : ℕ) :
    List (List ℤ) × ℕ :=
  let _ := n_leaves
  let _ := alpha
  (encodeSeqs (sim.draw s), s + 1)

/-- `generate_weighted_adj_matrix(n_leaves, alpha)`: generate (fresh) encoded
sequences via `generate_node_features` and build the weighted adjacency
matrix from them.  (Contrary to its docstring it does not return the encoded
sequences, only the matrix.) -/
noncomputable def generate_weighted_adj_matrix (sim : RandomSim) (n_leaves : ℕ) (alpha : ℝ)
    (s : ℕ) : Except String (NMat ℝ) × ℕ :=
  let r := generate_node_features sim n_leaves alpha s
  (build_weighted_adjacency_matrix (JukesCantor alpha) Real.log Real.exp r.1, r.2)

/-- `scipy.sparse.csr_matrix`: a change of representation only; the matrix it
stores is the one passed in. -/
def csr_matrix {γ : Type} (M : γ) : γ := M

/-- The encoded sequence set that `generate_data` feeds into the
weighted-adjacency-matrix stage: the draw taken *after* the draw that
produced the returned node features (see `generate_data_adj_from_consumed`
for the proof that this is exactly what the adjacency output is derived
from). -/
def featuresConsumedByAdjacency (sim : RandomSim) (n_leaves : ℕ) (alpha : ℝ) (s : ℕ) :
    List (List ℤ) :=
  (generate_node_features sim n_leaves alpha
    (generate_node_features sim n_leaves alpha s).2).1

/-- `generate_data(n_leaves, alpha)`: node features from one call to
`generate_node_features`, the weighted adjacency matrix from a second,
independent call made inside `generate_weighted_adj_matrix`, then the maximum
spanning tree and the materialized sparse adjacency matrix.  The shape checks
of the source only print warnings and do not alter the returned data. -/
noncomputable def generate_data (sim : RandomSim) (n_leaves : ℕ) (alpha : ℝ) (s : ℕ) :
    Except String (ℕ → ℕ → ℕ) × List (List ℤ) × ℕ :=
  let nf := generate_node_features sim n_leaves alpha s
  let wr := generate_weighted_adj_matrix sim n_leaves alpha nf.2
  let adj : Except String (ℕ → ℕ → ℕ) := do
    let W ← wr.1
    let mst := get_mst ⟨W.n, fun i j => ((W.entry i j : ℝ) : WithBot ℝ)⟩
    generate_unweighted_adj_matrix mst n_leaves
  (csr_matrix adj, nf.1, wr.2)

/-! ### Properties of the pairwise log-likelihood computation -/

/-- The substitution-count matrix `S_ij` of a pair of sequences, as a pure
function: occurrence counts of each (effective-index) symbol pair. -/
def subCountOf (s1 s2 : List ℤ) : Fin 4 → Fin 4 → ℕ :=
  fun a b => ((s1.zip s2).map (fun p => (finOfZ p.1, finOfZ p.2))).count (a, b)

/-- The transition matrix `P_t` computed inside `compute_log_likelihood`:
the model's matrix at the optimized branch length for the pair's counts. -/
def transOf {T α : Type} (model : SubstModel T α) (s1 s2 : List ℤ) : Fin 4 → Fin 4 → α :=
  model.trans_matrix (model.optimize_t (subCountOf s1 s2))

/-- A trivial concrete substitution model over `ℚ`, used to instantiate the
generic theorems at executable inputs. -/
def constModel : SubstModel Unit ℤ := ⟨fun _ => (), fun _ _ _ => 1⟩

/-- A trivial concrete substitution model over `ℝ` with all transition
probabilities 1 (hence row-positive), used to instantiate theorems that
mention `Real.log`. -/
def constModelR : SubstModel Unit ℝ := ⟨fun _ => (), fun _ _ _ => 1⟩

theorem npIdx4_inRange {z : ℤ} (h : inRange4 z) : npIdx4 z = .ok (finOfZ z) := by
  unfold npIdx4 finOfZ
  obtain ⟨h1, h2⟩ := h
  split
  · next h0 => congr 1; apply Fin.ext; simp; omega
  · next h0 =>
    split
    · next hx => congr 1; apply Fin.ext; simp; omega
    · next hx => omega

theorem npIdx4_notInRange {z : ℤ} (h : ¬ inRange4 z) : npIdx4 z = .error idxErrMsg := by
  unfold npIdx4
  unfold inRange4 at h
  split
  · omega
  · split
    · omega
    · rfl

theorem countSubs_ok (pairs : List (ℤ × ℤ)) (S₀ : Fin 4 → Fin 4 → ℕ)
    (h : ∀ p ∈ pairs, inRange4 p.1 ∧ inRange4 p.2) :
    pairs.foldlM
      (fun S p => do
        let i ← npIdx4 p.1
        let j ← npIdx4 p.2
        pure (bumpS S i j))
      S₀ = .ok (pairs.foldl (fun S p => bumpS S (finOfZ p.1) (finOfZ p.2)) S₀) := by
  induction pairs generalizing S₀ with
  | nil => rfl
  | cons p t ih =>
    have hp := h p (by simp)
    simp only [List.foldlM_cons, List.foldl_cons]
    rw [npIdx4_inRange hp.1, npIdx4_inRange hp.2]
    exact ih (bumpS S₀ (finOfZ p.1) (finOfZ p.2)) (fun q hq => h q (by simp [hq]))

theorem countSubs_err (pairs : List (ℤ × ℤ)) (S₀ : Fin 4 → Fin 4 → ℕ)
    (h : ∃ p ∈ pairs, ¬ (inRange4 p.1 ∧ inRange4 p.2)) :
    pairs.foldlM
      (fun S p => do
        let i ← npIdx4 p.1
        let j ← npIdx4 p.2
        pure (bumpS S i j))
      S₀ = .error idxErrMsg := by
  induction pairs generalizing S₀ with
  | nil => simp at h
  | cons p t ih =>
    simp only [List.foldlM_cons]
    by_cases hp : inRange4 p.1 ∧ inRange4 p.2
    · rw [npIdx4_inRange hp.1, npIdx4_inRange hp.2]
      apply ih
      obtain ⟨q, hq, hbad⟩ := h
      rcases List.mem_cons.mp hq with hq | hq
      · exact absurd hp (hq ▸ hbad)
      · exact ⟨q, hq, hbad⟩
    · rcases not_and_or.mp hp with h1 | h2
      · rw [npIdx4_notInRange h1]; rfl
      · by_cases h1 : inRange4 p.1
        · rw [npIdx4_inRange h1, npIdx4_notInRange h2]; rfl
        · rw [npIdx4_notInRange h1]; rfl

theorem sumLoop_ok {β : Type} [AddCommMonoid β] (f : Fin 4 → Fin 4 → β)
    (pairs : List (ℤ × ℤ)) (acc : β)
    (h : ∀ p ∈ pairs, inRange4 p.1 ∧ inRange4 p.2) :
    pairs.foldlM
      (fun acc p => do
        let i ← npIdx4 p.1
        let j ← npIdx4 p.2
        pure (acc + f i j))
      acc = .ok (acc + (pairs.map (fun p => f (finOfZ p.1) (finOfZ p.2))).sum) := by
  induction pairs generalizing acc with
  | nil => show Except.ok acc = _; simp
  | cons p t ih =>
    have hp := h p (by simp)
    simp only [List.foldlM_cons, List.map_cons, List.sum_cons]
    rw [npIdx4_inRange hp.1, npIdx4_inRange hp.2]
    show List.foldlM _ (acc + f (finOfZ p.1) (finOfZ p.2)) t = _
    rw [ih (acc + f (finOfZ p.1) (finOfZ p.2)) (fun q hq => h q (by simp [hq]))]
    rw [add_assoc]

theorem foldl_bumpS_eq_count (pairs : List (Fin 4 × Fin 4)) (S₀ : Fin 4 → Fin 4 → ℕ)
    (a b : Fin 4) :
    (pairs.foldl (fun S p => bumpS S p.1 p.2) S₀) a b = S₀ a b + pairs.count (a, b) := by
  induction pairs generalizing S₀ with
  | nil => simp
  | cons p t ih =>
    obtain ⟨p1, p2⟩ := p
    simp only [List.foldl_cons, List.count_cons, ih]
    by_cases hab : a = p1 ∧ b = p2
    · obtain ⟨h1, h2⟩ := hab
      subst h1; subst h2
      simp [bumpS]
      omega
    · have hne : ¬ ((p1, p2) = (a, b)) := by
        intro hc
        injection hc with hc1 hc2
        exact hab ⟨hc1.symm, hc2.symm⟩
      simp [bumpS, hab, hne]

theorem countSubs_eq_ok (pairs : List (ℤ × ℤ))
    (h : ∀ p ∈ pairs, inRange4 p.1 ∧ inRange4 p.2) :
    countSubs pairs =
      .ok (pairs.foldl (fun S p => bumpS S (finOfZ p.1) (finOfZ p.2)) (fun _ _ => 0)) :=
  countSubs_ok pairs (fun _ _ => 0) h

theorem countSubs_eq_err (pairs : List (ℤ × ℤ))
    (h : ∃ p ∈ pairs, ¬ (inRange4 p.1 ∧ inRange4 p.2)) :
    countSubs pairs = .error idxErrMsg :=
  countSubs_err pairs (fun _ _ => 0) h

/-- On equal-length sequences whose zipped symbol pairs are all in numpy's
accepted index range, `compute_log_likelihood` returns exactly the site-wise
sum of `lg` of the transition-matrix entries at the effective indices. -/
theorem compute_log_likelihood_spec {T α β : Type} [AddCommMonoid β] (model : SubstModel T α)
    (lg : α → β) (s1 s2 : List ℤ) (hlen : s1.length = s2.length)
    (hall : ∀ p ∈ s1.zip s2, inRange4 p.1 ∧ inRange4 p.2) :
    compute_log_likelihood model lg s1 s2 =
      .ok (((s1.zip s2).map
        (fun p => lg (transOf model s1 s2 (finOfZ p.1) (finOfZ p.2)))).sum) := by
  unfold compute_log_likelihood
  rw [if_neg (by omega)]
  rw [countSubs_eq_ok _ hall]
  have hS : ((s1.zip s2).foldl (fun S p => bumpS S (finOfZ p.1) (finOfZ p.2)) (fun _ _ => 0))
      = subCountOf s1 s2 := by
    funext a b
    rw [← List.foldl_map (fun p : ℤ × ℤ => (finOfZ p.1, finOfZ p.2))
      (fun S p => bumpS S p.1 p.2)]
    rw [foldl_bumpS_eq_count]
    simp [subCountOf]
  rw [hS]
  have hsum := sumLoop_ok
    (fun i j => lg (model.trans_matrix (model.optimize_t (subCountOf s1 s2)) i j))
    (s1.zip s2) 0 hall
  rw [zero_add] at hsum
  exact hsum

theorem compute_log_likelihood_len_err {T α β : Type} [AddCommMonoid β]
    (model : SubstModel T α) (lg : α → β) (s1 s2 : List ℤ) (h : s1.length ≠ s2.length) :
    compute_log_likelihood model lg s1 s2 = .error lengthErrMsg := by
  unfold compute_log_likelihood
  rw [if_pos h]

theorem compute_log_likelihood_idx_err {T α β : Type} [AddCommMonoid β]
    (model : SubstModel T α) (lg : α → β) (s1 s2 : List ℤ) (hlen : s1.length = s2.length)
    (hbad : ∃ p ∈ s1.zip s2, ¬ (inRange4 p.1 ∧ inRange4 p.2)) :
    compute_log_likelihood model lg s1 s2 = .error idxErrMsg := by
  unfold compute_log_likelihood
  rw [if_neg (by omega)]
  rw [countSubs_eq_err _ hbad]
  rfl

/-- C6: `compute_log_likelihood(seq_i, seq_j, model)` fails with the
length-mismatch `ValueError` if and only if the two sequences differ in
length, and on every pair of equal-length sequences over valid symbols it
returns a value without raising.  (Absence of side effects is inherent in the
embedding: the function is a pure function of the sequences and the model.) -/
theorem compute_log_likelihood_length_mismatch_iff {T α β : Type} [AddCommMonoid β]
    (model : SubstModel T α) (lg : α → β) (s1 s2 : List ℤ) :
    (compute_log_likelihood model lg s1 s2 = .error lengthErrMsg ↔
      s1.length ≠ s2.length) ∧
    (s1.length = s2.length → (∀ z ∈ s1, 0 ≤ z ∧ z < 4) → (∀ z ∈ s2, 0 ≤ z ∧ z < 4) →
      ∃ v, compute_log_likelihood model lg s1 s2 = .ok v) := by
  constructor
  · constructor
    · intro herr
      by_contra hlen0
      have hlen : s1.length = s2.length := by omega
      by_cases hall : ∀ p ∈ s1.zip s2, inRange4 p.1 ∧ inRange4 p.2
      · rw [compute_log_likelihood_spec model lg s1 s2 hlen hall] at herr
        exact Except.noConfusion herr
      · rw [compute_log_likelihood_idx_err model lg s1 s2 hlen (by push_neg at hall ⊢; exact hall)] at herr
        have : idxErrMsg = lengthErrMsg := Except.error.inj herr
        exact absurd this (by decide)
    · exact compute_log_likelihood_len_err model lg s1 s2
  · intro hlen h1 h2
    refine ⟨_, compute_log_likelihood_spec model lg s1 s2 hlen ?_⟩
    intro p hp
    have hm1 := List.of_mem_zip hp
    have := h1 p.1 hm1.1
    have := h2 p.2 hm1.2
    unfold inRange4
    omega

/-- Witness: the claim-C6 theorem applied at concrete inputs — a length
mismatch raises the `ValueError`, and an equal-length valid pair returns a
value. -/
theorem compute_log_likelihood_length_mismatch_iff_witness :
    (compute_log_likelihood constModel id [(0 : ℤ)] [0, 1] = .error lengthErrMsg) ∧
    ∃ v, compute_log_likelihood constModel id [(0 : ℤ), 1] [2, 3] = .ok v :=
  ⟨(compute_log_likelihood_length_mismatch_iff constModel id [(0 : ℤ)] [0, 1]).1.mpr
      (by decide),
   (compute_log_likelihood_length_mismatch_iff constModel id [(0 : ℤ), 1] [2, 3]).2
      (by decide) (by decide) (by decide)⟩

/-- C8 fails on the code: the symbol `-1` lies outside the alphabet
`{0,1,2,3}`, yet the pairwise likelihood computation silently accepts the
sequence containing it (numpy wraps the negative index around to 3) and
returns a value instead of failing with any error. -/
theorem negative_symbol_silently_accepted :
    (¬ (0 ≤ (-1 : ℤ) ∧ (-1 : ℤ) < 4)) ∧
    compute_log_likelihood constModel id [(-1 : ℤ)] [0] = .ok 1 :=
  ⟨by decide, by decide⟩

/-- C8 amended: there is no ingestion-time validation; on equal-length
sequences the computation returns a value iff every zipped symbol pair lies
in numpy's accepted index range `[-4, 4)` — so symbols in `[-4, 0)` (outside
the alphabet) are silently accepted via negative-index wraparound — and a
symbol outside `[-4, 4)` raises an `IndexError` from inside the
substitution-counting loop, not a dedicated `InvalidSymbol` error. -/
theorem compute_log_likelihood_symbol_range {T α β : Type} [AddCommMonoid β]
    (model : SubstModel T α) (lg : α → β) (s1 s2 : List ℤ)
    (hlen : s1.length = s2.length) :
    ((∃ v, compute_log_likelihood model lg s1 s2 = .ok v) ↔
      ∀ p ∈ s1.zip s2, inRange4 p.1 ∧ inRange4 p.2) ∧
    ((∃ p ∈ s1.zip s2, ¬ (inRange4 p.1 ∧ inRange4 p.2)) →
      compute_log_likelihood model lg s1 s2 = .error idxErrMsg) := by
  constructor
  · constructor
    · intro hok
      by_contra hall
      have hbad : ∃ p ∈ s1.zip s2, ¬ (inRange4 p.1 ∧ inRange4 p.2) := by
        by_contra hno
        push_neg at hno
        exact hall hno
      obtain ⟨v, hv⟩ := hok
      rw [compute_log_likelihood_idx_err model lg s1 s2 hlen hbad] at hv
      exact Except.noConfusion hv
    · intro hall
      exact ⟨_, compute_log_likelihood_spec model lg s1 s2 hlen hall⟩
  · exact compute_log_likelihood_idx_err model lg s1 s2 hlen

/-- Witness: the amended C8 theorem at concrete inputs — the out-of-range
symbol 5 raises the in-loop `IndexError`, while the out-of-alphabet symbol
`-1` is accepted. -/
theorem compute_log_likelihood_symbol_range_witness :
    (compute_log_likelihood constModel id [(5 : ℤ)] [0] = .error idxErrMsg) ∧
    ∃ v, compute_log_likelihood constModel id [(-1 : ℤ)] [0] = .ok v :=
  ⟨(compute_log_likelihood_symbol_range constModel id [(5 : ℤ)] [0] (by decide)).2
      (by decide),
   (compute_log_likelihood_symbol_range constModel id [(-1 : ℤ)] [0] (by decide)).1.mpr
      (by decide)⟩

theorem list_sum_eq_count_smul {β : Type} [AddCommMonoid β]
    (l : List (Fin 4 × Fin 4)) (g : Fin 4 → Fin 4 → β) :
    (l.map (fun p => g p.1 p.2)).sum =
      ∑ a : Fin 4, ∑ b : Fin 4, (l.count (a, b)) • g a b := by
  induction l with
  | nil => simp
  | cons p t ih =>
    obtain ⟨p1, p2⟩ := p
    simp only [List.map_cons, List.sum_cons, ih, List.count_cons, beq_iff_eq]
    have hsplit : ∀ a b : Fin 4,
        ((t.count (a, b) + if (p1, p2) = (a, b) then 1 else 0)) • g a b =
          (t.count (a, b)) • g a b + (if a = p1 ∧ b = p2 then g a b else 0) := by
      intro a b
      rw [add_nsmul]
      congr 1
      by_cases hc : a = p1 ∧ b = p2
      · rw [if_pos hc, if_pos (show ((p1 : Fin 4), (p2 : Fin 4)) = (a, b) by
            rw [hc.1, hc.2]), one_smul]
      · rw [if_neg hc,
          if_neg (by intro hc2; injection hc2 with h1 h2; exact hc ⟨h1.symm, h2.symm⟩),
          zero_smul]
    simp only [hsplit, Finset.sum_add_distrib]
    have hone : (∑ a : Fin 4, ∑ b : Fin 4, if a = p1 ∧ b = p2 then g a b else 0) = g p1 p2 := by
      rw [Finset.sum_eq_single p1]
      · rw [Finset.sum_eq_single p2]
        · simp
        · intro b _ hb; rw [if_neg (by simp [hb])]
        · intro h; exact absurd (Finset.mem_univ p2) h
      · intro a _ ha
        apply Finset.sum_eq_zero
        intro b _
        rw [if_neg (by simp [ha])]
      · intro h; exact absurd (Finset.mem_univ p1) h
    rw [hone, add_comm]

/-- C7: on equal-length sequences over the valid alphabet, the computed
log-likelihood is the site-wise sum of `log (P[symbol_i][symbol_j])` for the
model-produced transition matrix `P`, which equals the count-weighted sum
over symbol pairs of `S[a][b] * log (P[a][b])` for the pair's
substitution-count matrix `S`. -/
theorem compute_log_likelihood_sitewise {T : Type} (model : SubstModel T ℝ) (s1 s2 : List ℤ)
    (hlen : s1.length = s2.length)
    (h1 : ∀ z ∈ s1, 0 ≤ z ∧ z < 4) (h2 : ∀ z ∈ s2, 0 ≤ z ∧ z < 4)
    (_hpos : ∀ a b : Fin 4, 0 < transOf model s1 s2 a b) :
    compute_log_likelihood model Real.log s1 s2 =
      .ok (((s1.zip s2).map
        (fun p => Real.log (transOf model s1 s2 (finOfZ p.1) (finOfZ p.2)))).sum) ∧
    ((s1.zip s2).map
        (fun p => Real.log (transOf model s1 s2 (finOfZ p.1) (finOfZ p.2)))).sum =
      ∑ a : Fin 4, ∑ b : Fin 4,
        (subCountOf s1 s2 a b) • Real.log (transOf model s1 s2 a b) := by
  have hall : ∀ p ∈ s1.zip s2, inRange4 p.1 ∧ inRange4 p.2 := by
    intro p hp
    have hm := List.of_mem_zip hp
    have := h1 p.1 hm.1
    have := h2 p.2 hm.2
    unfold inRange4
    omega
  refine ⟨compute_log_likelihood_spec model Real.log s1 s2 hlen hall, ?_⟩
  have hmm := list_sum_eq_count_smul ((s1.zip s2).map (fun p => (finOfZ p.1, finOfZ p.2)))
    (fun a b => Real.log (transOf model s1 s2 a b))
  rw [List.map_map] at hmm
  exact hmm

/-- Witness: the C7 theorem at a concrete pair of valid sequences and the
trivial all-ones transition model (which is row-positive). -/
theorem compute_log_likelihood_sitewise_witness :
    compute_log_likelihood constModelR Real.log [(0 : ℤ), 1] [3, 1] =
      .ok ((([((0 : ℤ), (3 : ℤ)), (1, 1)]).map
        (fun p => Real.log (transOf constModelR [(0 : ℤ), 1] [3, 1]
          (finOfZ p.1) (finOfZ p.2)))).sum) ∧
    (([((0 : ℤ), (3 : ℤ)), (1, 1)]).map
        (fun p => Real.log (transOf constModelR [(0 : ℤ), 1] [3, 1]
          (finOfZ p.1) (finOfZ p.2)))).sum =
      ∑ a : Fin 4, ∑ b : Fin 4,
        (subCountOf [(0 : ℤ), 1] [3, 1] a b) •
          Real.log (transOf constModelR [(0 : ℤ), 1] [3, 1] a b) :=
  compute_log_likelihood_sitewise constModelR [(0 : ℤ), 1] [3, 1]
    (by decide) (by decide) (by decide)
    (fun a b => by simp [transOf, constModelR])

/-! ### Properties of the weighted adjacency matrix -/

theorem mem_rectangle {n : ℕ} {p : ℕ × ℕ} : p ∈ rectangle n ↔ p.1 < n ∧ p.2 < n := by
  unfold rectangle
  constructor
  · intro h
    simp only [List.mem_flatMap, List.mem_map, List.mem_range] at h
    obtain ⟨i, hi, j, hj, hp⟩ := h
    subst hp
    exact ⟨hi, hj⟩
  · intro ⟨h1, h2⟩
    simp only [List.mem_flatMap, List.mem_map, List.mem_range]
    exact ⟨p.1, h1, p.2, h2, rfl⟩

theorem pairLL_ok {T α β : Type} [AddCommMonoid β] (model : SubstModel T α) (lg : α → β)
    (seqs : List (List ℤ)) (L : ℕ)
    (hlen : ∀ s ∈ seqs, s.length = L)
    (hval : ∀ s ∈ seqs, ∀ z ∈ s, 0 ≤ z ∧ z < 4)
    (i j : ℕ) (hi : i < seqs.length) (hj : j < seqs.length) :
    ∃ v, pairLL model lg seqs i j = .ok v := by
  unfold pairLL
  by_cases hij : i = j
  · rw [if_pos hij]; exact ⟨0, rfl⟩
  · rw [if_neg hij]
    have hmi : seqs.getD i [] ∈ seqs := by
      rw [List.getD_eq_getElem seqs [] hi]; exact List.getElem_mem ..
    have hmj : seqs.getD j [] ∈ seqs := by
      rw [List.getD_eq_getElem seqs [] hj]; exact List.getElem_mem ..
    exact (compute_log_likelihood_length_mismatch_iff model lg _ _).2
      (by rw [hlen _ hmi, hlen _ hmj]) (hval _ hmi) (hval _ hmj)

/-- C3: on sequence sets of a common length over the valid alphabet, the
weighted adjacency matrix is exactly the elementwise `Real.exp` of the
log-likelihood matrix: the log-likelihood matrix has zero diagonal, every
weight is positive (hence non-negative), the diagonal weights are `exp 0 = 1`,
and the transform is monotone, so the ordering of weights is the ordering of
the log-likelihoods. -/
theorem build_weighted_adjacency_matrix_exp {T : Type} (model : SubstModel T ℝ)
    (seqs : List (List ℤ)) (L : ℕ)
    (hlen : ∀ s ∈ seqs, s.length = L)
    (hval : ∀ s ∈ seqs, ∀ z ∈ s, 0 ≤ z ∧ z < 4) :
    ∃ M W : NMat ℝ,
      loglik_matrix model Real.log seqs = .ok M ∧
      build_weighted_adjacency_matrix model Real.log Real.exp seqs = .ok W ∧
      W.n = M.n ∧ M.n = seqs.length ∧
      (∀ i j, W.entry i j = Real.exp (M.entry i j)) ∧
      (∀ i, i < M.n → M.entry i i = 0 ∧ W.entry i i = 1) ∧
      (∀ i j, 0 < W.entry i j) ∧
      (∀ i j k l, W.entry i j ≤ W.entry k l ↔ M.entry i j ≤ M.entry k l) := by
  have hok : ∀ p ∈ rectangle seqs.length,
      errPart (pairLL model Real.log seqs p.1 p.2) = none := by
    intro p hp
    obtain ⟨h1, h2⟩ := mem_rectangle.mp hp
    obtain ⟨v, hv⟩ := pairLL_ok model Real.log seqs L hlen hval p.1 p.2 h1 h2
    rw [hv]; rfl
  have hM : loglik_matrix model Real.log seqs = .ok ⟨seqs.length, fun i j =>
      if i < seqs.length ∧ j < seqs.length
      then (pairLL model Real.log seqs i j).toOption.getD 0 else 0⟩ := by
    unfold loglik_matrix
    rw [List.findSome?_eq_none_iff.mpr hok]
  refine ⟨⟨seqs.length, fun i j =>
      if i < seqs.length ∧ j < seqs.length
      then (pairLL model Real.log seqs i j).toOption.getD 0 else 0⟩,
    ⟨seqs.length, fun i j => Real.exp
      (if i < seqs.length ∧ j < seqs.length
       then (pairLL model Real.log seqs i j).toOption.getD 0 else 0)⟩,
    hM, ?_, rfl, rfl, fun i j => rfl, ?_, fun i j => Real.exp_pos _,
    fun i j k l => Real.exp_le_exp⟩
  · unfold build_weighted_adjacency_matrix
    rw [hM]
    rfl
  · intro i hi
    have hd : pairLL model Real.log seqs i i = .ok 0 := by unfold pairLL; rw [if_pos rfl]
    constructor
    · show (if i < seqs.length ∧ i < seqs.length then _ else 0) = (0 : ℝ)
      rw [if_pos ⟨hi, hi⟩, hd]
      rfl
    · show Real.exp (if i < seqs.length ∧ i < seqs.length then _ else 0) = 1
      rw [if_pos ⟨hi, hi⟩, hd]
      show Real.exp 0 = 1
      exact Real.exp_zero

/-- Witness: the claim-C3 theorem at a concrete two-sequence set of common
length 1 over the valid alphabet. -/
theorem build_weighted_adjacency_matrix_exp_witness :
    ∃ M W : NMat ℝ,
      loglik_matrix constModelR Real.log [[(0 : ℤ)], [1]] = .ok M ∧
      build_weighted_adjacency_matrix constModelR Real.log Real.exp [[(0 : ℤ)], [1]] = .ok W ∧
      W.n = M.n ∧ M.n = ([[(0 : ℤ)], [1]] : List (List ℤ)).length ∧
      (∀ i j, W.entry i j = Real.exp (M.entry i j)) ∧
      (∀ i, i < M.n → M.entry i i = 0 ∧ W.entry i i = 1) ∧
      (∀ i j, 0 < W.entry i j) ∧
      (∀ i j k l, W.entry i j ≤ W.entry k l ↔ M.entry i j ≤ M.entry k l) :=
  build_weighted_adjacency_matrix_exp constModelR [[(0 : ℤ)], [1]] 1
    (by decide) (by decide)

/-! ### Properties of the adjacency materializer -/

/-- Two edges describe the same unordered pair. -/
def sameEdge (e f : ℕ × ℕ) : Prop := f = e ∨ f = (e.2, e.1)

instance : ∀ e f, Decidable (sameEdge e f) := fun _ _ => inferInstanceAs (Decidable (_ ∨ _))

/-- The pure matrix fill of `generate_unweighted_adj_matrix` (the loop body
without the bounds bookkeeping). -/
def fillAdj (edges : List (ℕ × ℕ)) (M₀ : ℕ → ℕ → ℕ) : ℕ → ℕ → ℕ :=
  edges.foldl (fun M e => setEntry (setEntry M e.1 e.2 1) e.2 e.1 1) M₀

theorem fillAdj_fold_ok (edges : List (ℕ × ℕ)) (n : ℕ)
    (hb : ∀ e ∈ edges, e.1 < n ∧ e.2 < n) (M₀ : ℕ → ℕ → ℕ) :
    edges.foldlM
      (fun M e =>
        if e.1 < n ∧ e.2 < n then
          Except.ok (setEntry (setEntry M e.1 e.2 1) e.2 e.1 1)
        else Except.error "IndexError: node index out of bounds for adjacency matrix")
      M₀ = .ok (fillAdj edges M₀) := by
  unfold fillAdj
  induction edges generalizing M₀ with
  | nil => rfl
  | cons e t ih =>
    simp only [List.foldlM_cons, List.foldl_cons]
    rw [if_pos (hb e (by simp))]
    exact ih (fun f hf => hb f (by simp [hf])) _

theorem generate_unweighted_adj_matrix_ok (edges : List (ℕ × ℕ)) (n : ℕ)
    (hne : edges ≠ []) (hb : ∀ e ∈ edges, e.1 < n ∧ e.2 < n) :
    generate_unweighted_adj_matrix edges n = .ok (fillAdj edges (fun _ _ => 0)) := by
  unfold generate_unweighted_adj_matrix
  rw [if_neg (by simpa using hne)]
  exact fillAdj_fold_ok edges n hb _

theorem fillAdj_entry (edges : List (ℕ × ℕ)) (M₀ : ℕ → ℕ → ℕ) (u v : ℕ) :
    fillAdj edges M₀ u v =
      if (u, v) ∈ edges ∨ (v, u) ∈ edges then 1 else M₀ u v := by
  unfold fillAdj
  induction edges generalizing M₀ with
  | nil => simp
  | cons e t ih =>
    obtain ⟨e1, e2⟩ := e
    simp only [List.foldl_cons, List.mem_cons]
    rw [ih]
    by_cases ht : (u, v) ∈ t ∨ (v, u) ∈ t
    · rw [if_pos ht, if_pos (by tauto)]
    · rw [if_neg ht]
      unfold setEntry
      by_cases h21 : u = e2 ∧ v = e1
      · rw [if_pos h21, if_pos (Or.inr (Or.inl (by rw [h21.1, h21.2])))]
      · rw [if_neg h21]
        by_cases h12 : u = e1 ∧ v = e2
        · rw [if_pos h12, if_pos (Or.inl (Or.inl (by rw [h12.1, h12.2])))]
        · rw [if_neg h12]
          rw [if_neg (by
            intro hc
            rcases hc with (hc | hc) | (hc | hc)
            · injection hc with a b; exact h12 ⟨a, b⟩
            · exact ht (Or.inl hc)
            · injection hc with a b; exact h21 ⟨b, a⟩
            · exact ht (Or.inr hc))]

theorem card_adj_nonzero (n : ℕ) (edges : List (ℕ × ℕ))
    (hb : ∀ e ∈ edges, e.1 < n ∧ e.2 < n)
    (hdist : ∀ e ∈ edges, e.1 ≠ e.2)
    (huniq : edges.Pairwise (fun e f => ¬ sameEdge e f)) :
    ((Finset.range n ×ˢ Finset.range n).filter
      (fun q => (q.1, q.2) ∈ edges ∨ (q.2, q.1) ∈ edges)).card = 2 * edges.length := by
  induction edges with
  | nil => simp
  | cons e t ih =>
    obtain ⟨e1, e2⟩ := e
    have hbt : ∀ f ∈ t, f.1 < n ∧ f.2 < n := fun f hf => hb f (by simp [hf])
    have hdt : ∀ f ∈ t, f.1 ≠ f.2 := fun f hf => hdist f (by simp [hf])
    have hut : t.Pairwise (fun e f => ¬ sameEdge e f) := (List.pairwise_cons.mp huniq).2
    have hhead : ∀ f ∈ t, ¬ sameEdge (e1, e2) f := (List.pairwise_cons.mp huniq).1
    have he1 : e1 < n := (hb (e1, e2) (by simp)).1
    have he2 : e2 < n := (hb (e1, e2) (by simp)).2
    have hne12 : e1 ≠ e2 := hdist (e1, e2) (by simp)
    have hset : (Finset.range n ×ˢ Finset.range n).filter
        (fun q => (q.1, q.2) ∈ (e1, e2) :: t ∨ (q.2, q.1) ∈ (e1, e2) :: t) =
        insert (e1, e2) (insert (e2, e1)
          ((Finset.range n ×ˢ Finset.range n).filter
            (fun q => (q.1, q.2) ∈ t ∨ (q.2, q.1) ∈ t))) := by
      ext q
      obtain ⟨q1, q2⟩ := q
      simp only [Finset.mem_filter, Finset.mem_insert, Finset.mem_product,
        Finset.mem_range, List.mem_cons]
      constructor
      · intro ⟨hq, hcond⟩
        rcases hcond with (h | h) | (h | h)
        · left; exact h
        · right; right; exact ⟨hq, Or.inl h⟩
        · right; left
          injection h with a b
          rw [a, b]
        · right; right; exact ⟨hq, Or.inr h⟩
      · intro h
        rcases h with h | h | ⟨hq, hc⟩
        · injection h with a b
          subst a; subst b
          exact ⟨⟨he1, he2⟩, Or.inl (Or.inl rfl)⟩
        · injection h with a b
          subst a; subst b
          exact ⟨⟨he2, he1⟩, Or.inr (Or.inl rfl)⟩
        · exact ⟨hq, by tauto⟩
    rw [hset]
    have hm1 : ((e2, e1) : ℕ × ℕ) ∉ (Finset.range n ×ˢ Finset.range n).filter
        (fun q => (q.1, q.2) ∈ t ∨ (q.2, q.1) ∈ t) := by
      simp only [Finset.mem_filter]
      intro ⟨_, hc⟩
      rcases hc with hc | hc
      · exact hhead _ hc (Or.inr rfl)
      · exact hhead _ hc (Or.inl rfl)
    have hm2 : ((e1, e2) : ℕ × ℕ) ∉ insert (e2, e1)
        ((Finset.range n ×ˢ Finset.range n).filter
          (fun q => (q.1, q.2) ∈ t ∨ (q.2, q.1) ∈ t)) := by
      simp only [Finset.mem_insert, Finset.mem_filter]
      intro hc
      rcases hc with hc | ⟨_, hc | hc⟩
      · injection hc with a b
        exact hne12 a
      · exact hhead _ hc (Or.inl rfl)
      · exact hhead _ hc (Or.inr rfl)
    rw [Finset.card_insert_of_not_mem hm2, Finset.card_insert_of_not_mem hm1,
      ih hbt hdt hut]
    simp only [List.length_cons]
    ring

/-- C5 fails on the code at the empty tree edge list (which satisfies all the
claim's conditions vacuously): instead of the `num_nodes × num_nodes` zero
matrix, an `IndexError` is raised. -/
theorem generate_unweighted_adj_matrix_empty_counterexample :
    generate_unweighted_adj_matrix [] 3 = .error "IndexError: tuple index out of range" ∧
    ∀ A, generate_unweighted_adj_matrix [] 3 ≠ .ok A :=
  ⟨rfl, fun _ h => Except.noConfusion h⟩

/-- C5 amended: for every *non-empty* tree edge list with distinct in-bounds
endpoints and each unordered pair occurring at most once, the materialized
matrix is symmetric, 0/1-valued, has `[u][v] = [v][u] = 1` exactly for tree
edges, and has exactly `2 · (number of edges)` non-zero entries — hence
`2 · (N - 2)` for an N-node MST input with its `N - 2` edges.  (On the empty
edge list the function instead raises an `IndexError`.) -/
theorem generate_unweighted_adj_matrix_spec (edges : List (ℕ × ℕ)) (n : ℕ)
    (hne : edges ≠ [])
    (hb : ∀ e ∈ edges, e.1 < n ∧ e.2 < n)
    (hdist : ∀ e ∈ edges, e.1 ≠ e.2)
    (huniq : edges.Pairwise (fun e f => ¬ sameEdge e f)) :
    ∃ A : ℕ → ℕ → ℕ, generate_unweighted_adj_matrix edges n = .ok A ∧
      (∀ u v, A u v = A v u) ∧
      (∀ u v, A u v = 0 ∨ A u v = 1) ∧
      (∀ u v, A u v = 1 ↔ ((u, v) ∈ edges ∨ (v, u) ∈ edges)) ∧
      ((Finset.range n ×ˢ Finset.range n).filter (fun q => A q.1 q.2 ≠ 0)).card
        = 2 * edges.length := by
  refine ⟨fillAdj edges (fun _ _ => 0),
    generate_unweighted_adj_matrix_ok edges n hne hb, ?_, ?_, ?_, ?_⟩
  · intro u v
    rw [fillAdj_entry, fillAdj_entry]
    by_cases h : (u, v) ∈ edges ∨ (v, u) ∈ edges
    · rw [if_pos h, if_pos (by tauto)]
    · rw [if_neg h, if_neg (by tauto)]
  · intro u v
    rw [fillAdj_entry]
    by_cases h : (u, v) ∈ edges ∨ (v, u) ∈ edges
    · right; rw [if_pos h]
    · left; rw [if_neg h]
  · intro u v
    rw [fillAdj_entry]
    by_cases h : (u, v) ∈ edges ∨ (v, u) ∈ edges
    · rw [if_pos h]; simp [h]
    · rw [if_neg h]; simp [h]
  · have : ∀ q : ℕ × ℕ, (fillAdj edges (fun _ _ => 0) q.1 q.2 ≠ 0) =
        ((q.1, q.2) ∈ edges ∨ (q.2, q.1) ∈ edges) := by
      intro q
      rw [fillAdj_entry]
      by_cases h : (q.1, q.2) ∈ edges ∨ (q.2, q.1) ∈ edges
      · rw [if_pos h]; simp [h]
      · rw [if_neg h]; simp [h]
    simp only [this]
    exact card_adj_nonzero n edges hb hdist huniq

/-- Witness: the amended C5 theorem at the two-edge path tree on 3 nodes
(the MST shape for N = 4 leaves, N - 2 = 2 edges). -/
theorem generate_unweighted_adj_matrix_spec_witness :
    ∃ A : ℕ → ℕ → ℕ, generate_unweighted_adj_matrix [(0, 1), (1, 2)] 4 = .ok A ∧
      (∀ u v, A u v = A v u) ∧
      (∀ u v, A u v = 0 ∨ A u v = 1) ∧
      (∀ u v, A u v = 1 ↔ ((u, v) ∈ [(0, 1), (1, 2)] ∨ (v, u) ∈ [(0, 1), (1, 2)])) ∧
      ((Finset.range 4 ×ˢ Finset.range 4).filter (fun q => A q.1 q.2 ≠ 0)).card
        = 2 * ([(0, 1), (1, 2)] : List (ℕ × ℕ)).length :=
  generate_unweighted_adj_matrix_spec [(0, 1), (1, 2)] 4 (by decide) (by decide)
    (by decide) (by decide)

/-- C10: on an empty tree edge list — such as the MST edge list of a weight
matrix with a single row, whose graph has no edges — the materializer raises
an `IndexError` (from `np.array([]).T` being one-dimensional when
`edges.shape[1]` is read) for every `num_nodes`, instead of returning the
all-zero `num_nodes × num_nodes` matrix. -/
theorem generate_unweighted_adj_matrix_empty_raises (num_nodes : ℕ)
    (W : NMat (WithBot ℤ)) (hW : W.n = 1) :
    generate_unweighted_adj_matrix [] num_nodes
        = .error "IndexError: tuple index out of range" ∧
    generate_unweighted_adj_matrix (get_mst W) num_nodes
        = .error "IndexError: tuple index out of range" := by
  constructor
  · rfl
  · obtain ⟨m, E⟩ := W
    simp only at hW
    subst hW
    rfl

/-- Witness: the C10 theorem at a concrete 1×1 weight matrix. -/
theorem generate_unweighted_adj_matrix_empty_raises_witness :
    generate_unweighted_adj_matrix [] 7 = .error "IndexError: tuple index out of range" ∧
    generate_unweighted_adj_matrix
        (get_mst (⟨1, fun _ _ => ((1 : ℤ) : WithBot ℤ)⟩ : NMat (WithBot ℤ))) 7
        = .error "IndexError: tuple index out of range" :=
  generate_unweighted_adj_matrix_empty_raises 7 ⟨1, fun _ _ => ((1 : ℤ) : WithBot ℤ)⟩ rfl

/-- C9: the `get_mst` → `generate_unweighted_adj_matrix` sub-pipeline is a
pure, deterministic function of the weight matrix: two runs on identical
inputs produce identical (bit-identical in the embedding) results, errors
included.  No random source is consumed by either stage. -/
theorem mst_materialize_deterministic {α : Type} [LinearOrder α]
    (W₁ W₂ : NMat (WithBot α)) (n : ℕ) (h : W₁ = W₂) :
    generate_unweighted_adj_matrix (get_mst W₁) n
      = generate_unweighted_adj_matrix (get_mst W₂) n := by
  rw [h]

/-- Witness: the C9 theorem on two (syntactically identical) copies of a
concrete weight matrix. -/
theorem mst_materialize_deterministic_witness :
    generate_unweighted_adj_matrix
        (get_mst (⟨3, fun i j => ((10 - (i : ℤ) - j : ℤ) : WithBot ℤ)⟩ : NMat (WithBot ℤ))) 3
      = generate_unweighted_adj_matrix
        (get_mst (⟨3, fun i j => ((10 - (i : ℤ) - j : ℤ) : WithBot ℤ)⟩ : NMat (WithBot ℤ))) 3 :=
  mst_materialize_deterministic _ _ 3 rfl

/-! ### Properties of the graph handed to the spanning-tree algorithm -/

theorem addEdge_mem {α : Type} {G : List ((ℕ × ℕ) × α)} {u v : ℕ} {w : α}
    {ent : (ℕ × ℕ) × α} (h : ent ∈ addEdge G u v w) :
    ent ∈ G ∨ ent = (normPair u v, w) := by
  unfold addEdge at h
  split at h
  · rcases List.mem_map.mp h with ⟨orig, horig, hf⟩
    by_cases hk : orig.1 = normPair u v
    · rw [if_pos hk] at hf
      right; rw [← hf, hk]
    · rw [if_neg hk] at hf
      left; rw [← hf]; exact horig
  · rcases List.mem_append.mp h with h | h
    · left; exact h
    · right; simpa using h

theorem addEdge_key_iff {α : Type} (G : List ((ℕ × ℕ) × α)) (u v : ℕ) (w : α) (k : ℕ × ℕ) :
    (∃ w', (k, w') ∈ addEdge G u v w) ↔ k = normPair u v ∨ ∃ w', (k, w') ∈ G := by
  constructor
  · intro ⟨w', hw'⟩
    rcases addEdge_mem hw' with h | h
    · right; exact ⟨w', h⟩
    · left; exact congrArg Prod.fst h
  · intro h
    unfold addEdge
    by_cases hc : (G.map Prod.fst).contains (normPair u v)
    · rw [if_pos hc]
      have hmain : ∃ w', (normPair u v, w') ∈
          G.map (fun ent => if ent.1 = normPair u v then (ent.1, w) else ent) := by
        have hmem : normPair u v ∈ G.map Prod.fst := by
          rw [← List.elem_iff]; exact hc
        rcases List.mem_map.mp hmem with ⟨orig, horig, hf⟩
        refine ⟨w, List.mem_map.mpr ⟨orig, horig, ?_⟩⟩
        rw [if_pos hf, hf]
      rcases h with h | ⟨w', hw'⟩
      · rw [h]; exact hmain
      · by_cases hk : k = normPair u v
        · rw [hk]; exact hmain
        · refine ⟨w', List.mem_map.mpr ⟨(k, w'), hw', ?_⟩⟩
          rw [if_neg hk]
    · rw [if_neg hc]
      rcases h with h | ⟨w', hw'⟩
      · subst h; exact ⟨w, List.mem_append.mpr (Or.inr (by simp))⟩
      · exact ⟨w', List.mem_append.mpr (Or.inl hw')⟩

theorem addEdge_keys_nodup {α : Type} {G : List ((ℕ × ℕ) × α)} {u v : ℕ} {w : α}
    (h : (G.map Prod.fst).Nodup) : ((addEdge G u v w).map Prod.fst).Nodup := by
  unfold addEdge
  by_cases hc : (G.map Prod.fst).contains (normPair u v)
  · rw [if_pos hc]
    have : (G.map (fun ent => if ent.1 = normPair u v then (ent.1, w) else ent)).map Prod.fst
        = G.map Prod.fst := by
      rw [List.map_map]
      apply List.map_congr_left
      intro ent _
      by_cases hk : ent.1 = normPair u v
      · simp [hk]
      · simp [hk]
    rw [this]; exact h
  · rw [if_neg hc]
    rw [List.map_append]
    rw [List.nodup_append]
    refine ⟨h, by simp, ?_⟩
    intro a ha hb
    simp only [List.map_cons, List.map_nil, List.mem_singleton] at hb
    subst hb
    exact hc (by rw [List.elem_iff]; exact ha)

theorem graphFold_mem {α : Type} (W : NMat (WithBot α)) (ps : List (ℕ × ℕ))
    (G₀ : List ((ℕ × ℕ) × α)) (ent : (ℕ × ℕ) × α)
    (h : ent ∈ ps.foldl (stepG W) G₀) :
    ent ∈ G₀ ∨ ∃ p ∈ ps, ent.1 = normPair p.1 p.2 ∧ W.entry p.1 p.2 = (ent.2 : WithBot α) := by
  induction ps generalizing G₀ with
  | nil => left; exact h
  | cons p t ih =>
    rcases ih (stepG W G₀ p) h with hin | ⟨q, hq, hk, hw⟩
    · unfold stepG at hin
      split at hin
      · left; exact hin
      · next w hw =>
        rcases addEdge_mem hin with hin | hin
        · left; exact hin
        · right
          refine ⟨p, by simp, ?_, ?_⟩
          · rw [hin]
          · rw [hin, hw]
            rfl
    · right; exact ⟨q, by simp [hq], hk, hw⟩

theorem graphFold_key_iff {α : Type} (W : NMat (WithBot α)) (ps : List (ℕ × ℕ))
    (G₀ : List ((ℕ × ℕ) × α)) (k : ℕ × ℕ) :
    (∃ w, (k, w) ∈ ps.foldl (stepG W) G₀) ↔
      (∃ w, (k, w) ∈ G₀) ∨ ∃ p ∈ ps, normPair p.1 p.2 = k ∧ W.entry p.1 p.2 ≠ ⊥ := by
  induction ps generalizing G₀ with
  | nil => simp
  | cons p t ih =>
    show (∃ w, (k, w) ∈ t.foldl (stepG W) (stepG W G₀ p)) ↔ _
    rw [ih]
    unfold stepG
    constructor
    · intro h
      rcases h with h | ⟨q, hq, hk, hw⟩
      · split at h
        · left; exact h
        · next w hw =>
          rcases (addEdge_key_iff G₀ p.1 p.2 w k).mp h with h | h
          · right
            exact ⟨p, by simp, h.symm, by rw [hw]; exact WithBot.coe_ne_bot⟩
          · left; exact h
      · right; exact ⟨q, by simp [hq], hk, hw⟩
    · intro h
      rcases h with h | ⟨q, hq, hk, hw⟩
      · split
        · left; exact h
        · left
          next w hweq =>
          exact (addEdge_key_iff G₀ p.1 p.2 w k).mpr (Or.inr h)
      · rcases List.mem_cons.mp hq with hq | hq
        · subst hq
          split
          · next hbot => exact absurd hbot hw
          · next w hweq =>
            left
            exact (addEdge_key_iff G₀ q.1 q.2 w k).mpr (Or.inl hk.symm)
        · right; exact ⟨q, hq, hk, hw⟩

theorem graphFold_nodup {α : Type} (W : NMat (WithBot α)) (ps : List (ℕ × ℕ))
    (G₀ : List ((ℕ × ℕ) × α)) (h : (G₀.map Prod.fst).Nodup) :
    ((ps.foldl (stepG W) G₀).map Prod.fst).Nodup := by
  induction ps generalizing G₀ with
  | nil => exact h
  | cons p t ih =>
    apply ih
    unfold stepG
    split
    · exact h
    · exact addEdge_keys_nodup h

theorem normPair_eq_iff {a b i j : ℕ} :
    normPair a b = normPair i j ↔ ((a, b) = (i, j) ∨ (a, b) = (j, i)) := by
  unfold normPair
  rw [Prod.mk.injEq, Prod.mk.injEq, Prod.mk.injEq]
  omega

/-- C4 fails on the code: with a 3×3 all-ones weight matrix (no `-inf`
sentinel anywhere), the graph handed to the spanning-tree algorithm contains
a self-loop — an edge whose two endpoints coincide — because the double loop
lacks an `i != j` check; so the graph does not consist only of edges on
unordered pairs with `i ≠ j`. -/
theorem self_loop_in_mst_graph :
    ∃ ent ∈ graphOf (⟨3, fun _ _ => ((1 : ℤ) : WithBot ℤ)⟩ : NMat (WithBot ℤ)),
      ent.1.1 = ent.1.2 := by decide

/-- C4 amended: the graph is built over indices `[0, N-2]` only, with
normalized unordered keys and no duplicate keys; a key `{i, j}` (including
`i = j`: the self-loops the original claim omits) is present iff
`W[i,j] ≠ -inf` or `W[j,i] ≠ -inf`; every stored weight is one of the two
matrix entries of its pair, and for symmetric `W` it equals `W[i,j]` as the
claim states. -/
theorem graphOf_characterization {α : Type} (W : NMat (WithBot α)) :
    (∀ ent ∈ graphOf W, ent.1.1 ≤ ent.1.2 ∧ ent.1.2 < W.n - 1 ∧
        (W.entry ent.1.1 ent.1.2 = (ent.2 : WithBot α) ∨
         W.entry ent.1.2 ent.1.1 = (ent.2 : WithBot α))) ∧
    (∀ i j, i < W.n - 1 → j < W.n - 1 →
        ((∃ w, (normPair i j, w) ∈ graphOf W) ↔
          (W.entry i j ≠ ⊥ ∨ W.entry j i ≠ ⊥))) ∧
    ((graphOf W).map Prod.fst).Nodup ∧
    (∀ i j w, (∀ a b, W.entry a b = W.entry b a) →
        (normPair i j, w) ∈ graphOf W → W.entry i j = (w : WithBot α)) := by
  refine ⟨?_, ?_, graphFold_nodup W _ [] (by simp), ?_⟩
  · intro ent hent
    rcases graphFold_mem W _ [] ent hent with h | ⟨p, hp, hk, hw⟩
    · simp at h
    · obtain ⟨hp1, hp2⟩ := mem_rectangle.mp hp
      rcases le_total p.1 p.2 with hle | hle
      · have hnp : normPair p.1 p.2 = (p.1, p.2) := by
          unfold normPair; rw [min_eq_left hle, max_eq_right hle]
        rw [hnp] at hk
        have h1 : ent.1.1 = p.1 := by rw [hk]
        have h2 : ent.1.2 = p.2 := by rw [hk]
        refine ⟨by omega, by omega, Or.inl ?_⟩
        rw [h1, h2]; exact hw
      · have hnp : normPair p.1 p.2 = (p.2, p.1) := by
          unfold normPair; rw [min_eq_right hle, max_eq_left hle]
        rw [hnp] at hk
        have h1 : ent.1.1 = p.2 := by rw [hk]
        have h2 : ent.1.2 = p.1 := by rw [hk]
        refine ⟨by omega, by omega, Or.inr ?_⟩
        rw [h1, h2]; exact hw
  · intro i j hi hj
    rw [show graphOf W = (rectangle (W.n - 1)).foldl (stepG W) [] from rfl,
      graphFold_key_iff]
    constructor
    · intro h
      rcases h with h | ⟨p, hp, hk, hw⟩
      · simp at h
      · rcases normPair_eq_iff.mp hk with h | h
        · left
          have h1 : p.1 = i := congrArg Prod.fst h
          have h2 : p.2 = j := congrArg Prod.snd h
          rw [← h1, ← h2]; exact hw
        · right
          have h1 : p.1 = j := congrArg Prod.fst h
          have h2 : p.2 = i := congrArg Prod.snd h
          rw [← h1, ← h2]; exact hw
    · intro h
      rcases h with h | h
      · exact Or.inr ⟨(i, j), mem_rectangle.mpr ⟨hi, hj⟩, rfl, h⟩
      · exact Or.inr ⟨(j, i), mem_rectangle.mpr ⟨hj, hi⟩, normPair_eq_iff.mpr
          (Or.inr rfl), h⟩
  · intro i j w hsym hmem
    rcases graphFold_mem W _ [] (normPair i j, w) hmem with h | ⟨p, _, hk, hw⟩
    · simp at h
    · have hk' : normPair p.1 p.2 = normPair i j := hk.symm
      rcases normPair_eq_iff.mp hk' with h | h
      · have h1 : p.1 = i := congrArg Prod.fst h
        have h2 : p.2 = j := congrArg Prod.snd h
        rw [← h1, ← h2]; exact hw
      · have h1 : p.1 = j := congrArg Prod.fst h
        have h2 : p.2 = i := congrArg Prod.snd h
        rw [hsym i j, ← h1, ← h2]; exact hw

/-- Witness: the amended C4 theorem at a 3×3 all-ones symmetric matrix — the
unordered pair `{0, 1}` is present (both entries non-sentinel), and its stored
weight is `W[0,1] = 1`. -/
theorem graphOf_characterization_witness :
    ((∃ w, (normPair 0 1, w) ∈
        graphOf (⟨3, fun _ _ => ((1 : ℤ) : WithBot ℤ)⟩ : NMat (WithBot ℤ))) ↔
      ((⟨3, fun _ _ => ((1 : ℤ) : WithBot ℤ)⟩ : NMat (WithBot ℤ)).entry 0 1 ≠ ⊥ ∨
       (⟨3, fun _ _ => ((1 : ℤ) : WithBot ℤ)⟩ : NMat (WithBot ℤ)).entry 1 0 ≠ ⊥)) ∧
    (⟨3, fun _ _ => ((1 : ℤ) : WithBot ℤ)⟩ : NMat (WithBot ℤ)).entry 0 1
      = ((1 : ℤ) : WithBot ℤ) :=
  ⟨(graphOf_characterization _).2.1 0 1 (by decide) (by decide),
   (graphOf_characterization _).2.2.2 0 1 1 (fun _ _ => rfl) (by decide)⟩

/-! ### Data flow of generate_data -/

/-- The adjacency output of `generate_data` is, definitionally, the
exp-MST-materialize pipeline applied to `featuresConsumedByAdjacency` — the
encoded sequence set drawn by the *second* call to `generate_node_features`
(the one inside `generate_weighted_adj_matrix`), not to the sequence set
returned as node features. -/
theorem generate_data_adj_from_consumed (sim : RandomSim) (n_leaves : ℕ) (alpha : ℝ)
    (s : ℕ) :
    (generate_data sim n_leaves alpha s).1 = csr_matrix (do
      let W ← build_weighted_adjacency_matrix (JukesCantor alpha) Real.log Real.exp
        (featuresConsumedByAdjacency sim n_leaves alpha s)
      let mst := get_mst ⟨W.n, fun i j => ((W.entry i j : ℝ) : WithBot ℝ)⟩
      generate_unweighted_adj_matrix mst n_leaves) := rfl

/-- A random source whose first two draws differ: the generic situation for
the spec-modelled `create_tree`/`simulate_seq`, which produce a fresh random
tree and sequence batch on every call. -/
def divergentSim : RandomSim := ⟨fun s => if s = 0 then [['A']] else [['C']]⟩

/-- C1 fails on the code: under a random source whose consecutive draws
differ, the node features returned by `generate_data` come from the first
draw (here `[[0]]`, sequence "A"), while the weighted adjacency matrix — and
hence the returned sparse adjacency matrix, see
`generate_data_adj_from_consumed` — is derived from a second, fresh draw
(here `[[1]]`, sequence "C").  The pipeline stages therefore do not share one
encoded sequence set. -/
theorem generate_data_uses_fresh_draw :
    (generate_data divergentSim 1 (1 / 10 : ℝ) 0).2.1 = [[(0 : ℤ)]] ∧
    featuresConsumedByAdjacency divergentSim 1 (1 / 10 : ℝ) 0 = [[(1 : ℤ)]] ∧
    (generate_data divergentSim 1 (1 / 10 : ℝ) 0).2.1 ≠
      featuresConsumedByAdjacency divergentSim 1 (1 / 10 : ℝ) 0 := by
  refine ⟨?_, ?_, ?_⟩
  · show encodeSeqs (divergentSim.draw 0) = [[(0 : ℤ)]]
    decide
  · show encodeSeqs (divergentSim.draw 1) = [[(1 : ℤ)]]
    decide
  · show encodeSeqs (divergentSim.draw 0) ≠ encodeSeqs (divergentSim.draw 1)
    decide

/-! ### Spanning-tree theory: connectivity, component counting, exchange -/

/-- Symmetric adjacency induced by a finite set of (ordered) edge pairs. -/
def adjIn (E : Finset (ℕ × ℕ)) (a b : ℕ) : Prop := (a, b) ∈ E ∨ (b, a) ∈ E

/-- Connectivity via a finite edge set: the reflexive-transitive closure of
the symmetric adjacency. -/
def connIn (E : Finset (ℕ × ℕ)) : ℕ → ℕ → Prop := Relation.ReflTransGen (adjIn E)

theorem adjIn_symm {E : Finset (ℕ × ℕ)} : Symmetric (adjIn E) := by
  intro a b h
  rcases h with h | h
  · exact Or.inr h
  · exact Or.inl h

theorem connIn_refl {E : Finset (ℕ × ℕ)} (a : ℕ) : connIn E a a :=
  Relation.ReflTransGen.refl

theorem connIn_symm {E : Finset (ℕ × ℕ)} {a b : ℕ} (h : connIn E a b) : connIn E b a :=
  Relation.ReflTransGen.symmetric adjIn_symm h

theorem connIn_trans {E : Finset (ℕ × ℕ)} {a b c : ℕ} (h1 : connIn E a b)
    (h2 : connIn E b c) : connIn E a c :=
  Relation.ReflTransGen.trans h1 h2

theorem connIn_of_mem {E : Finset (ℕ × ℕ)} {a b : ℕ} (h : (a, b) ∈ E) : connIn E a b :=
  Relation.ReflTransGen.single (Or.inl h)

theorem connIn_mono {E E' : Finset (ℕ × ℕ)} (hss : E ⊆ E') {a b : ℕ}
    (h : connIn E a b) : connIn E' a b := by
  refine Relation.ReflTransGen.mono ?_ h
  intro x y hxy
  rcases hxy with hxy | hxy
  · exact Or.inl (hss hxy)
  · exact Or.inr (hss hxy)

theorem connIn_empty {a b : ℕ} : connIn ∅ a b ↔ a = b := by
  constructor
  · intro h
    induction h with
    | refl => rfl
    | tail _ hadj ih =>
      rcases hadj with h | h <;> simp at h
  · intro h; rw [h]; exact connIn_refl b

theorem connIn_le_of_edges {E E' : Finset (ℕ × ℕ)}
    (h : ∀ e ∈ E', connIn E e.1 e.2) {a b : ℕ} (hab : connIn E' a b) :
    connIn E a b := by
  induction hab with
  | refl => exact connIn_refl a
  | tail _ hadj ih =>
    rcases hadj with hm | hm
    · exact connIn_trans ih (h _ hm)
    · exact connIn_trans ih (connIn_symm (h _ hm))

theorem connIn_insert_iff {E : Finset (ℕ × ℕ)} {u v a b : ℕ} :
    connIn (insert (u, v) E) a b ↔
      connIn E a b ∨ (connIn E a u ∧ connIn E v b) ∨ (connIn E a v ∧ connIn E u b) := by
  constructor
  · intro h
    induction h with
    | refl => exact Or.inl (connIn_refl a)
    | @tail m d hmd hadj ih =>
      have hstep : (m = u ∧ d = v) ∨ (m = v ∧ d = u) ∨ adjIn E m d := by
        rcases hadj with hm | hm
        · rcases Finset.mem_insert.mp hm with hm | hm
          · left
            exact ⟨congrArg Prod.fst hm, congrArg Prod.snd hm⟩
          · right; right; exact Or.inl hm
        · rcases Finset.mem_insert.mp hm with hm | hm
          · right; left
            exact ⟨congrArg Prod.snd hm, congrArg Prod.fst hm⟩
          · right; right; exact Or.inr hm
      rcases hstep with ⟨hc, hd⟩ | ⟨hc, hd⟩ | hadjE
      · rw [hc] at ih
        rw [hd]
        rcases ih with ih | ⟨ih1, ih2⟩ | ⟨ih1, ih2⟩
        · exact Or.inr (Or.inl ⟨ih, connIn_refl v⟩)
        · exact Or.inr (Or.inl ⟨ih1, connIn_refl v⟩)
        · exact Or.inl ih1
      · rw [hc] at ih
        rw [hd]
        rcases ih with ih | ⟨ih1, ih2⟩ | ⟨ih1, ih2⟩
        · exact Or.inr (Or.inr ⟨ih, connIn_refl u⟩)
        · exact Or.inl ih1
        · exact Or.inr (Or.inr ⟨ih1, connIn_refl u⟩)
      · have hcd : connIn E m d := Relation.ReflTransGen.single hadjE
        rcases ih with ih | ⟨ih1, ih2⟩ | ⟨ih1, ih2⟩
        · exact Or.inl (connIn_trans ih hcd)
        · exact Or.inr (Or.inl ⟨ih1, connIn_trans ih2 hcd⟩)
        · exact Or.inr (Or.inr ⟨ih1, connIn_trans ih2 hcd⟩)
  · intro h
    have hedge : connIn (insert (u, v) E) u v :=
      connIn_of_mem (Finset.mem_insert_self (u, v) E)
    have hmono : ∀ {x y : ℕ}, connIn E x y → connIn (insert (u, v) E) x y :=
      fun h => connIn_mono (Finset.subset_insert _ E) h
    rcases h with h | ⟨h1, h2⟩ | ⟨h1, h2⟩
    · exact hmono h
    · exact connIn_trans (hmono h1) (connIn_trans hedge (hmono h2))
    · exact connIn_trans (hmono h1) (connIn_trans (connIn_symm hedge) (hmono h2))

theorem connIn_insert_of_conn {E : Finset (ℕ × ℕ)} {u v : ℕ} (huv : connIn E u v)
    {a b : ℕ} : connIn (insert (u, v) E) a b ↔ connIn E a b := by
  rw [connIn_insert_iff]
  constructor
  · intro h
    rcases h with h | ⟨h1, h2⟩ | ⟨h1, h2⟩
    · exact h
    · exact connIn_trans h1 (connIn_trans huv h2)
    · exact connIn_trans h1 (connIn_trans (connIn_symm huv) h2)
  · exact Or.inl

noncomputable instance connInDec (E : Finset (ℕ × ℕ)) (a b : ℕ) : Decidable (connIn E a b) :=
  Classical.dec _

/-- The members of `v`'s connected component inside the vertex set `V`. -/
noncomputable def component (V : Finset ℕ) (E : Finset (ℕ × ℕ)) (u : ℕ) : Finset ℕ :=
  V.filter (fun w => connIn E w u)

/-- The component representatives: vertices that are minimal in their
connected component.  Their number is the number of connected components of
the graph `(V, E)`. -/
noncomputable def leaders (V : Finset ℕ) (E : Finset (ℕ × ℕ)) : Finset ℕ :=
  V.filter (fun v => ∀ u ∈ V, connIn E u v → v ≤ u)

theorem mem_component {V : Finset ℕ} {E : Finset (ℕ × ℕ)} {u w : ℕ} :
    w ∈ component V E u ↔ w ∈ V ∧ connIn E w u := by
  unfold component
  rw [Finset.mem_filter]

theorem mem_leaders {V : Finset ℕ} {E : Finset (ℕ × ℕ)} {v : ℕ} :
    v ∈ leaders V E ↔ v ∈ V ∧ ∀ u ∈ V, connIn E u v → v ≤ u := by
  unfold leaders
  rw [Finset.mem_filter]

theorem component_nonempty {V : Finset ℕ} {E : Finset (ℕ × ℕ)} {u : ℕ} (hu : u ∈ V) :
    (component V E u).Nonempty :=
  ⟨u, mem_component.mpr ⟨hu, connIn_refl u⟩⟩

/-- The representative (minimum) of `u`'s component. -/
noncomputable def leaderOf (V : Finset ℕ) (E : Finset (ℕ × ℕ)) (u : ℕ) (hu : u ∈ V) : ℕ :=
  (component V E u).min' (component_nonempty hu)

theorem leaderOf_mem {V : Finset ℕ} {E : Finset (ℕ × ℕ)} {u : ℕ} (hu : u ∈ V) :
    leaderOf V E u hu ∈ V ∧ connIn E (leaderOf V E u hu) u :=
  mem_component.mp ((component V E u).min'_mem (component_nonempty hu))

theorem leaderOf_le {V : Finset ℕ} {E : Finset (ℕ × ℕ)} {u z : ℕ} (hu : u ∈ V)
    (hz : z ∈ V) (hconn : connIn E z u) : leaderOf V E u hu ≤ z :=
  (component V E u).min'_le z (mem_component.mpr ⟨hz, hconn⟩)

theorem leaderOf_mem_leaders {V : Finset ℕ} {E : Finset (ℕ × ℕ)} {u : ℕ} (hu : u ∈ V) :
    leaderOf V E u hu ∈ leaders V E := by
  rw [mem_leaders]
  refine ⟨(leaderOf_mem hu).1, ?_⟩
  intro z hz hconn
  exact leaderOf_le hu hz (connIn_trans hconn (leaderOf_mem hu).2)

theorem leader_eq_leaderOf {V : Finset ℕ} {E : Finset (ℕ × ℕ)} {u z : ℕ} (hu : u ∈ V)
    (hz : z ∈ leaders V E) (hconn : connIn E z u) : z = leaderOf V E u hu := by
  have h1 : leaderOf V E u hu ≤ z := leaderOf_le hu (mem_leaders.mp hz).1 hconn
  have h2 : z ≤ leaderOf V E u hu :=
    (mem_leaders.mp hz).2 _ (leaderOf_mem hu).1
      (connIn_trans (leaderOf_mem hu).2 (connIn_symm hconn))
  omega

theorem leaders_antitone {V : Finset ℕ} {E E' : Finset (ℕ × ℕ)}
    (h : ∀ a b, connIn E a b → connIn E' a b) : leaders V E' ⊆ leaders V E := by
  intro v hv
  rw [mem_leaders] at hv ⊢
  exact ⟨hv.1, fun u hu hconn => hv.2 u hu (h u v hconn)⟩

theorem leaders_empty {V : Finset ℕ} : leaders V (∅ : Finset (ℕ × ℕ)) = V := by
  ext v
  rw [mem_leaders]
  constructor
  · exact fun h => h.1
  · intro hv
    refine ⟨hv, fun u _ hconn => ?_⟩
    rw [connIn_empty.mp hconn]

theorem leaders_insert_of_conn {V : Finset ℕ} {E : Finset (ℕ × ℕ)} {u v : ℕ}
    (huv : connIn E u v) : leaders V (insert (u, v) E) = leaders V E := by
  ext z
  rw [mem_leaders, mem_leaders]
  constructor
  · intro ⟨hz, h⟩
    exact ⟨hz, fun y hy hconn =>
      h y hy (connIn_mono (Finset.subset_insert _ E) hconn)⟩
  · intro ⟨hz, h⟩
    exact ⟨hz, fun y hy hconn => h y hy ((connIn_insert_of_conn huv).mp hconn)⟩

theorem leaderOf_ne_of_not_conn {V : Finset ℕ} {E : Finset (ℕ × ℕ)} {u v : ℕ}
    (hu : u ∈ V) (hv : v ∈ V) (h : ¬ connIn E u v) :
    leaderOf V E u hu ≠ leaderOf V E v hv := by
  intro heq
  exact h (connIn_trans (connIn_symm (leaderOf_mem hu).2) (heq ▸ (leaderOf_mem hv).2))

theorem leaders_insert_of_not_conn {V : Finset ℕ} {E : Finset (ℕ × ℕ)} {u v : ℕ}
    (hu : u ∈ V) (hv : v ∈ V) (h : ¬ connIn E u v) :
    leaders V (insert (u, v) E) =
      (leaders V E).erase (max (leaderOf V E u hu) (leaderOf V E v hv)) := by
  have hlu := @leaderOf_mem V E u hu
  have hlv := @leaderOf_mem V E v hv
  have hne := leaderOf_ne_of_not_conn hu hv h
  ext z
  rw [Finset.mem_erase]
  constructor
  · intro hz
    have hzV := (mem_leaders.mp hz).1
    have hzE : z ∈ leaders V E :=
      leaders_antitone (fun a b hab => connIn_mono (Finset.subset_insert _ E) hab) hz
    refine ⟨?_, hzE⟩
    intro hzm
    have hconn_lu_lv : connIn (insert (u, v) E) (leaderOf V E u hu) (leaderOf V E v hv) := by
      have h1 : connIn (insert (u, v) E) (leaderOf V E u hu) u :=
        connIn_mono (Finset.subset_insert _ E) hlu.2
      have h2 : connIn (insert (u, v) E) v (leaderOf V E v hv) :=
        connIn_mono (Finset.subset_insert _ E) (connIn_symm hlv.2)
      exact connIn_trans h1 (connIn_trans
        (connIn_of_mem (Finset.mem_insert_self (u, v) E)) h2)
    rcases le_total (leaderOf V E u hu) (leaderOf V E v hv) with hle | hle
    · rw [max_eq_right hle] at hzm
      have : z ≤ leaderOf V E u hu := (mem_leaders.mp hz).2 _ hlu.1
        (by rw [hzm]; exact hconn_lu_lv)
      omega
    · rw [max_eq_left hle] at hzm
      have : z ≤ leaderOf V E v hv := (mem_leaders.mp hz).2 _ hlv.1
        (by rw [hzm]; exact connIn_symm hconn_lu_lv)
      omega
  · intro ⟨hzm, hz⟩
    rw [mem_leaders]
    refine ⟨(mem_leaders.mp hz).1, ?_⟩
    intro y hy hconn
    rcases connIn_insert_iff.mp hconn with hc | ⟨hc1, hc2⟩ | ⟨hc1, hc2⟩
    · exact (mem_leaders.mp hz).2 y hy hc
    · -- y ~E u and v ~E z : z is the leader of v's component
      have hzlv : z = leaderOf V E v hv :=
        leader_eq_leaderOf hv hz (connIn_symm hc2)
      have hmlu : max (leaderOf V E u hu) (leaderOf V E v hv) = leaderOf V E u hu := by
        rcases max_choice (leaderOf V E u hu) (leaderOf V E v hv) with hm | hm
        · exact hm
        · exact absurd (hzlv ▸ hm.symm) hzm
      have hlvlu : leaderOf V E v hv ≤ leaderOf V E u hu := by
        have := le_max_right (leaderOf V E u hu) (leaderOf V E v hv)
        omega
      have hluy : leaderOf V E u hu ≤ y := leaderOf_le hu hy hc1
      omega
    · have hzlu : z = leaderOf V E u hu :=
        leader_eq_leaderOf hu hz (connIn_symm hc2)
      have hmlv : max (leaderOf V E u hu) (leaderOf V E v hv) = leaderOf V E v hv := by
        rcases max_choice (leaderOf V E u hu) (leaderOf V E v hv) with hm | hm
        · exact absurd (hzlu ▸ hm.symm) hzm
        · exact hm
      have hlulv : leaderOf V E u hu ≤ leaderOf V E v hv := by
        have := le_max_left (leaderOf V E u hu) (leaderOf V E v hv)
        omega
      have hlvy : leaderOf V E v hv ≤ y := leaderOf_le hv hy hc1
      omega

theorem leaders_card_insert_of_not_conn {V : Finset ℕ} {E : Finset (ℕ × ℕ)} {u v : ℕ}
    (hu : u ∈ V) (hv : v ∈ V) (h : ¬ connIn E u v) :
    (leaders V (insert (u, v) E)).card + 1 = (leaders V E).card := by
  rw [leaders_insert_of_not_conn hu hv h]
  have hm : max (leaderOf V E u hu) (leaderOf V E v hv) ∈ leaders V E := by
    rcases max_choice (leaderOf V E u hu) (leaderOf V E v hv) with hm | hm <;> rw [hm]
    · exact leaderOf_mem_leaders hu
    · exact leaderOf_mem_leaders hv
  rw [Finset.card_erase_of_mem hm]
  have : 0 < (leaders V E).card := Finset.card_pos.mpr ⟨_, hm⟩
  omega

theorem leaders_card_add_card (V : Finset ℕ) (E : Finset (ℕ × ℕ))
    (hEV : ∀ e ∈ E, e.1 ∈ V ∧ e.2 ∈ V) :
    V.card ≤ (leaders V E).card + E.card := by
  induction E using Finset.induction_on with
  | empty => rw [leaders_empty]; simp
  | @insert e E he ih =>
    obtain ⟨u, v⟩ := e
    have hu : u ∈ V := (hEV (u, v) (Finset.mem_insert_self _ E)).1
    have hv : v ∈ V := (hEV (u, v) (Finset.mem_insert_self _ E)).2
    have hEV' : ∀ e ∈ E, e.1 ∈ V ∧ e.2 ∈ V :=
      fun f hf => hEV f (Finset.mem_insert_of_mem hf)
    rw [Finset.card_insert_of_not_mem he]
    by_cases hc : connIn E u v
    · rw [leaders_insert_of_conn hc]
      have := ih hEV'
      omega
    · have hcard := leaders_card_insert_of_not_conn hu hv hc
      have := ih hEV'
      omega

/-- A "tight" edge set over vertex set `V`: the number of connected
components plus the number of edges equals the number of vertices.  These are
exactly the forests (self-loop-free, cycle-free edge sets). -/
def Tight (V : Finset ℕ) (E : Finset (ℕ × ℕ)) : Prop :=
  (leaders V E).card + E.card = V.card

theorem tight_of_tight_insert {V : Finset ℕ} {E : Finset (ℕ × ℕ)} {d : ℕ × ℕ}
    (hd : d ∉ E) (hdV : d.1 ∈ V ∧ d.2 ∈ V) (hEV : ∀ e ∈ E, e.1 ∈ V ∧ e.2 ∈ V)
    (hT : Tight V (insert d E)) : Tight V E := by
  obtain ⟨u, v⟩ := d
  have hdu : u ∈ V := hdV.1
  have hdv : v ∈ V := hdV.2
  unfold Tight at hT ⊢
  rw [Finset.card_insert_of_not_mem hd] at hT
  by_cases hc : connIn E u v
  · rw [leaders_insert_of_conn hc] at hT
    have := leaders_card_add_card V E hEV
    omega
  · have := leaders_card_insert_of_not_conn hdu hdv hc
    omega

theorem tight_subset_aux {V : Finset ℕ} :
    ∀ n (E E' : Finset (ℕ × ℕ)), E.card = n → E' ⊆ E →
      (∀ e ∈ E, e.1 ∈ V ∧ e.2 ∈ V) → Tight V E → Tight V E' := by
  intro n
  induction n with
  | zero =>
    intro E E' hc hss hEV hT
    have hE : E = ∅ := Finset.card_eq_zero.mp hc
    subst hE
    rw [Finset.subset_empty.mp hss]
    exact hT
  | succ n ih =>
    intro E E' hc hss hEV hT
    by_cases heq : E' = E
    · rw [heq]; exact hT
    · have hstrict : ∃ d ∈ E, d ∉ E' := by
        by_contra hno
        push_neg at hno
        exact heq (Finset.Subset.antisymm hss hno)
      obtain ⟨d, hdE, hdE'⟩ := hstrict
      have hVd := hEV d hdE
      have hsub2 : E' ⊆ E.erase d := fun x hx =>
        Finset.mem_erase.mpr ⟨fun hxd => hdE' (hxd ▸ hx), hss hx⟩
      have hEV' : ∀ e ∈ E.erase d, e.1 ∈ V ∧ e.2 ∈ V :=
        fun e he => hEV e (Finset.erase_subset d E he)
      have hT' : Tight V (E.erase d) := by
        apply tight_of_tight_insert (Finset.not_mem_erase d E) hVd hEV'
        rw [Finset.insert_erase hdE]
        exact hT
      have herase_card : (E.erase d).card = n := by
        rw [Finset.card_erase_of_mem hdE, hc]
        rfl
      exact ih (E.erase d) E' herase_card hsub2 hEV' hT'

theorem tight_subset {V : Finset ℕ} {E E' : Finset (ℕ × ℕ)} (hss : E' ⊆ E)
    (hEV : ∀ e ∈ E, e.1 ∈ V ∧ e.2 ∈ V) (hT : Tight V E) : Tight V E' :=
  tight_subset_aux E.card E E' rfl hss hEV hT

/-- The matroid exchange property for tight edge sets (forests): a smaller
forest can always be augmented by an edge of a bigger one whose endpoints it
does not yet connect. -/
theorem tight_exchange {V : Finset ℕ} {F₁ F₂ : Finset (ℕ × ℕ)}
    (hT1 : Tight V F₁) (hT2 : Tight V F₂) (hcard : F₁.card < F₂.card) :
    ∃ e ∈ F₂, ¬ connIn F₁ e.1 e.2 := by
  by_contra hno
  push_neg at hno
  have hsub : leaders V F₁ ⊆ leaders V F₂ :=
    leaders_antitone (fun a b hab => connIn_le_of_edges hno hab)
  have := Finset.card_le_card hsub
  unfold Tight at hT1 hT2
  omega

/-! ### Invariants of the Kruskal fold -/

/-- Invariant of Kruskal's union-find fold: the representative map realizes
exactly the connectivity of the chosen edges; the chosen edges form, in
order, a sublist of the processed edges; every processed edge has its
endpoints connected by chosen edges; the chosen edge set is a forest (tight);
and no chosen key repeats. -/
structure GoodState {α : Type} (V : Finset ℕ) (processed : List ((ℕ × ℕ) × α))
    (st : (ℕ → ℕ) × List ((ℕ × ℕ) × α)) : Prop where
  conn_iff : ∀ a b, st.1 a = st.1 b ↔ connIn (st.2.map Prod.fst).toFinset a b
  sub : st.2.Sublist processed
  proc_conn : ∀ ent ∈ processed, connIn (st.2.map Prod.fst).toFinset ent.1.1 ent.1.2
  tight : Tight V (st.2.map Prod.fst).toFinset
  nodup : (st.2.map Prod.fst).Nodup

theorem goodState_init {α : Type} (V : Finset ℕ) :
    GoodState V ([] : List ((ℕ × ℕ) × α)) (id, []) := by
  constructor
  · intro a b
    show a = b ↔ connIn ([] : List (ℕ × ℕ)).toFinset a b
    rw [show ([] : List (ℕ × ℕ)).toFinset = ∅ from rfl, connIn_empty]
  · exact List.Sublist.refl []
  · intro ent hent; simp at hent
  · show Tight V ([] : List (ℕ × ℕ)).toFinset
    rw [show ([] : List (ℕ × ℕ)).toFinset = ∅ from rfl]
    unfold Tight
    rw [leaders_empty]
    simp
  · simp

theorem goodState_step {α : Type} (V : Finset ℕ) (processed : List ((ℕ × ℕ) × α))
    (st : (ℕ → ℕ) × List ((ℕ × ℕ) × α)) (e : (ℕ × ℕ) × α)
    (heV : e.1.1 ∈ V ∧ e.1.2 ∈ V) (hgs : GoodState V processed st) :
    GoodState V (processed ++ [e]) (kruskalStep st e) := by
  obtain ⟨r, ch⟩ := st
  unfold kruskalStep
  by_cases hr : r e.1.1 = r e.1.2
  · rw [if_pos hr]
    refine ⟨hgs.conn_iff, ?_, ?_, hgs.tight, hgs.nodup⟩
    · exact hgs.sub.trans (List.sublist_append_left processed [e])
    · intro ent hent
      rcases List.mem_append.mp hent with h | h
      · exact hgs.proc_conn ent h
      · rw [List.mem_singleton.mp h]
        exact (hgs.conn_iff _ _).mp hr
  · rw [if_neg hr]
    have hci : ∀ a b, r a = r b ↔ connIn ((ch.map Prod.fst).toFinset) a b := hgs.conn_iff
    have hnc : ¬ connIn (ch.map Prod.fst).toFinset e.1.1 e.1.2 :=
      fun hc => hr ((hci _ _).mpr hc)
    have hkey_not_mem : e.1 ∉ ch.map Prod.fst := by
      intro hmem
      exact hnc (connIn_of_mem (List.mem_toFinset.mpr (by
        have heta : ((e.1.1, e.1.2) : ℕ × ℕ) = e.1 := rfl
        rw [heta]
        exact hmem)))
    have hsetF : (((ch ++ [e]).map Prod.fst).toFinset : Finset (ℕ × ℕ)) =
        insert (e.1.1, e.1.2) (ch.map Prod.fst).toFinset := by
      ext x
      simp only [List.map_append, List.mem_toFinset, List.mem_append,
        Finset.mem_insert, List.map_cons, List.map_nil, List.mem_singleton]
      constructor
      · intro h
        rcases h with h | h
        · exact Or.inr h
        · exact Or.inl h
      · intro h
        rcases h with h | h
        · exact Or.inr h
        · exact Or.inl h
    refine ⟨?_, ?_, ?_, ?_, ?_⟩
    · intro a b
      show (if r a = r e.1.2 then r e.1.1 else r a) =
          (if r b = r e.1.2 then r e.1.1 else r b) ↔
        connIn (((ch ++ [e]).map Prod.fst).toFinset) a b
      rw [hsetF, connIn_insert_iff]
      rw [← hci a b, ← hci a e.1.1, ← hci e.1.2 b, ← hci a e.1.2, ← hci e.1.1 b]
      by_cases h1 : r a = r e.1.2 <;> by_cases h2 : r b = r e.1.2
      · rw [if_pos h1, if_pos h2]
        constructor
        · intro _; exact Or.inl (h1.trans h2.symm)
        · intro _; rfl
      · rw [if_pos h1, if_neg h2]
        constructor
        · intro hub; exact Or.inr (Or.inr ⟨h1, hub⟩)
        · intro hcase
          rcases hcase with hab | ⟨hau, hvb⟩ | ⟨hav, hub⟩
          · exact absurd (hab.symm.trans h1) h2
          · exact absurd hvb.symm h2
          · exact hub
      · rw [if_neg h1, if_pos h2]
        constructor
        · intro hau; exact Or.inr (Or.inl ⟨hau, h2.symm⟩)
        · intro hcase
          rcases hcase with hab | ⟨hau, hvb⟩ | ⟨hav, hub⟩
          · exact absurd (hab.trans h2) h1
          · exact hau
          · exact absurd hav h1
      · rw [if_neg h1, if_neg h2]
        constructor
        · intro hab; exact Or.inl hab
        · intro hcase
          rcases hcase with hab | ⟨hau, hvb⟩ | ⟨hav, hub⟩
          · exact hab
          · exact absurd hvb.symm h2
          · exact absurd hav h1
    · show (ch ++ [e]).Sublist (processed ++ [e])
      exact hgs.sub.append (List.Sublist.refl [e])
    · show ∀ ent ∈ processed ++ [e],
        connIn (((ch ++ [e]).map Prod.fst).toFinset) ent.1.1 ent.1.2
      intro ent hent
      rw [hsetF]
      rcases List.mem_append.mp hent with h | h
      · exact connIn_mono (Finset.subset_insert _ _) (hgs.proc_conn ent h)
      · rw [List.mem_singleton.mp h]
        exact connIn_of_mem (Finset.mem_insert_self _ _)
    · show Tight V (((ch ++ [e]).map Prod.fst).toFinset)
      rw [hsetF]
      unfold Tight
      have hcard : (insert (e.1.1, e.1.2) (ch.map Prod.fst).toFinset).card =
          (ch.map Prod.fst).toFinset.card + 1 := by
        rw [Finset.card_insert_of_not_mem (by
          rw [List.mem_toFinset]
          intro hc
          exact hkey_not_mem (by
            have heta : ((e.1.1, e.1.2) : ℕ × ℕ) = e.1 := rfl
            rw [← heta]
            exact hc))]
      rw [hcard]
      have hlead := leaders_card_insert_of_not_conn heV.1 heV.2 hnc
      have htight : Tight V ((ch.map Prod.fst).toFinset) := hgs.tight
      unfold Tight at htight
      omega
    · show ((ch ++ [e]).map Prod.fst).Nodup
      rw [List.map_append]
      rw [List.nodup_append]
      refine ⟨hgs.nodup, by simp, ?_⟩
      intro a ha hb
      simp only [List.map_cons, List.map_nil, List.mem_singleton] at hb
      subst hb
      exact hkey_not_mem ha

theorem goodState_fold {α : Type} (V : Finset ℕ) (L : List ((ℕ × ℕ) × α)) :
    ∀ (processed : List ((ℕ × ℕ) × α)) (st : (ℕ → ℕ) × List ((ℕ × ℕ) × α)),
      (∀ ent ∈ L, ent.1.1 ∈ V ∧ ent.1.2 ∈ V) →
      GoodState V processed st →
      GoodState V (processed ++ L) (L.foldl kruskalStep st) := by
  induction L with
  | nil => intro processed st _ hgs; simpa using hgs
  | cons e t ih =>
    intro processed st hLV hgs
    have h1 := goodState_step V processed st e (hLV e (by simp)) hgs
    have h2 := ih (processed ++ [e]) (kruskalStep st e)
      (fun f hf => hLV f (by simp [hf])) h1
    simpa [List.append_assoc] using h2

theorem kruskalFold_chosen_extend {α : Type} (L : List ((ℕ × ℕ) × α)) :
    ∀ st : (ℕ → ℕ) × List ((ℕ × ℕ) × α), ∃ extra,
      (L.foldl kruskalStep st).2 = st.2 ++ extra ∧ extra.Sublist L := by
  induction L with
  | nil => intro st; exact ⟨[], by simp⟩
  | cons e t ih =>
    intro st
    obtain ⟨extra, hex, hsub⟩ := ih (kruskalStep st e)
    rw [List.foldl_cons]
    unfold kruskalStep at hex ⊢
    by_cases hr : st.1 e.1.1 = st.1 e.1.2
    · rw [if_pos hr] at hex ⊢
      exact ⟨extra, hex, hsub.cons e⟩
    · rw [if_neg hr] at hex ⊢
      refine ⟨e :: extra, ?_, hsub.cons₂ e⟩
      rw [hex, List.append_assoc]
      rfl

/-! ### Sorted-weight counting and the nodes of the graph -/

/-- The node set of the graph built by `get_mst`: networkx creates a node for
each endpoint of an added edge. -/
def graphNodes {α : Type} (W : NMat (WithBot α)) : Finset ℕ :=
  ((graphOf W).map Prod.fst).foldr (fun k s => insert k.1 (insert k.2 s)) ∅

theorem mem_graphNodes {α : Type} {W : NMat (WithBot α)} {a : ℕ} :
    a ∈ graphNodes W ↔ ∃ k ∈ (graphOf W).map Prod.fst, k.1 = a ∨ k.2 = a := by
  unfold graphNodes
  generalize (graphOf W).map Prod.fst = keys
  induction keys with
  | nil => simp
  | cons k t ih =>
    simp only [List.foldr_cons, Finset.mem_insert, ih, List.mem_cons]
    constructor
    · rintro (h | h | ⟨q, hq, hor⟩)
      · exact ⟨k, Or.inl rfl, Or.inl h.symm⟩
      · exact ⟨k, Or.inl rfl, Or.inr h.symm⟩
      · exact ⟨q, Or.inr hq, hor⟩
    · rintro ⟨q, hq | hq, hor⟩
      · subst hq
        rcases hor with h | h
        · exact Or.inl h.symm
        · exact Or.inr (Or.inl h.symm)
      · exact Or.inr (Or.inr ⟨q, hq, hor⟩)

theorem key_ends_mem_graphNodes {α : Type} {W : NMat (WithBot α)} {k : ℕ × ℕ}
    (hk : k ∈ (graphOf W).map Prod.fst) : k.1 ∈ graphNodes W ∧ k.2 ∈ graphNodes W :=
  ⟨mem_graphNodes.mpr ⟨k, hk, Or.inl rfl⟩, mem_graphNodes.mpr ⟨k, hk, Or.inr rfl⟩⟩

theorem ent_ends_mem_graphNodes {α : Type} {W : NMat (WithBot α)} {ent : (ℕ × ℕ) × α}
    (hent : ent ∈ graphOf W) : ent.1.1 ∈ graphNodes W ∧ ent.1.2 ∈ graphNodes W :=
  key_ends_mem_graphNodes (List.mem_map_of_mem Prod.fst hent)

theorem leaders_card_of_conn_total {V : Finset ℕ} {E : Finset (ℕ × ℕ)}
    (hne : V.Nonempty) (htotal : ∀ u ∈ V, ∀ v ∈ V, connIn E u v) :
    (leaders V E).card = 1 := by
  have hset : leaders V E = {V.min' hne} := by
    ext z
    rw [mem_leaders, Finset.mem_singleton]
    constructor
    · intro ⟨hz, hmin⟩
      have h1 : z ≤ V.min' hne :=
        hmin _ (V.min'_mem hne) (htotal _ (V.min'_mem hne) _ hz)
      have h2 : V.min' hne ≤ z := V.min'_le z hz
      omega
    · intro hz
      subst hz
      exact ⟨V.min'_mem hne, fun u hu _ => V.min'_le u hu⟩
  rw [hset]
  simp

/-- Weight-descending order on bare weights. -/
def wGE {α : Type} [LinearOrder α] (x y : α) : Prop := y ≤ x

instance {α : Type} [LinearOrder α] : DecidableRel (@wGE α _) :=
  fun x y => inferInstanceAs (Decidable (y ≤ x))

instance {α : Type} [LinearOrder α] : IsTotal α wGE := ⟨fun a b => le_total b a⟩

instance {α : Type} [LinearOrder α] : IsTrans α wGE := ⟨fun _ _ _ h1 h2 => le_trans h2 h1⟩

/-- On weight lists sorted in decreasing order, domination of all the
threshold counts plus equal length forces the sums to compare. -/
theorem sorted_count_dominates_sum {α : Type} [LinearOrderedAddCommMonoid α] :
    ∀ xs ys : List α, List.Sorted wGE xs → List.Sorted wGE ys →
      xs.length = ys.length →
      (∀ w, xs.countP (fun x => decide (w ≤ x)) ≤ ys.countP (fun x => decide (w ≤ x))) →
      xs.sum ≤ ys.sum := by
  intro xs
  induction xs with
  | nil =>
    intro ys _ _ hlen _
    rw [List.length_nil] at hlen
    rw [(List.length_eq_zero.mp hlen.symm : ys = [])]
  | cons x xs' ih =>
    intro ys hxs hys hlen hcount
    cases ys with
    | nil => simp at hlen
    | cons y ys' =>
      have hxy : x ≤ y := by
        by_contra hyx
        rw [not_le] at hyx
        have hl : 1 ≤ (x :: xs').countP (fun z => decide (x ≤ z)) := by
          rw [List.countP_cons]
          have hx : (decide (x ≤ x) : Bool) = true := by simp
          rw [hx]
          simp
        have hr : (y :: ys').countP (fun z => decide (x ≤ z)) = 0 := by
          rw [List.countP_eq_zero]
          intro z hz
          rcases List.mem_cons.mp hz with hz | hz
          · subst hz
            simp only [decide_eq_true_eq]
            exact not_le.mpr hyx
          · have hzy : wGE y z := List.rel_of_sorted_cons hys z hz
            unfold wGE at hzy
            simp only [decide_eq_true_eq]
            exact not_le.mpr (lt_of_le_of_lt hzy hyx)
        have := hcount x
        omega
      have hcount' : ∀ w, xs'.countP (fun z => decide (w ≤ z)) ≤
          ys'.countP (fun z => decide (w ≤ z)) := by
        intro w
        by_cases hw : w ≤ x
        · have h1 := hcount w
          rw [List.countP_cons, List.countP_cons] at h1
          have hdx : (decide (w ≤ x) : Bool) = true := by simpa
          have hdy : (decide (w ≤ y) : Bool) = true := by
            simp only [decide_eq_true_eq]
            exact le_trans hw hxy
          rw [hdx, hdy] at h1
          omega
        · have h0 : xs'.countP (fun z => decide (w ≤ z)) = 0 := by
            rw [List.countP_eq_zero]
            intro z hz
            have hzx : wGE x z := List.rel_of_sorted_cons hxs z hz
            unfold wGE at hzx
            simp only [decide_eq_true_eq]
            rw [not_le] at hw
            exact not_le.mpr (lt_of_le_of_lt hzx hw)
          omega
      have hsum := ih ys' hxs.of_cons hys.of_cons (by simpa using hlen) hcount'
      rw [List.sum_cons, List.sum_cons]
      exact add_le_add hxy hsum

theorem dropWhile_weight_lt {α : Type} [LinearOrder α] (w : α) :
    ∀ L : List ((ℕ × ℕ) × α), List.Sorted wtGE L →
      ∀ ent ∈ L.dropWhile (fun ent => decide (w ≤ ent.2)), ent.2 < w := by
  intro L
  induction L with
  | nil => intro _ ent hent; simp at hent
  | cons a t ih =>
    intro hsort ent hent
    rw [List.dropWhile_cons] at hent
    by_cases hpa : (decide (w ≤ a.2) : Bool) = true
    · rw [if_pos hpa] at hent
      exact ih hsort.of_cons ent hent
    · rw [if_neg hpa] at hent
      simp only [decide_eq_true_eq, not_le] at hpa
      rcases List.mem_cons.mp hent with hent | hent
      · rw [hent]; exact hpa
      · have hrel : wtGE a ent := List.rel_of_sorted_cons hsort ent hent
        unfold wtGE at hrel
        exact lt_of_le_of_lt hrel hpa

/-- At every weight threshold `w`, the edges of weight at least `w` that
Kruskal keeps are a maximum-cardinality forest among the graph edges of
weight at least `w`; in particular they outnumber the corresponding slice of
any tight (forest) subset `T` of the graph's edges. -/
theorem kruskal_count_dominates {α : Type} [LinearOrder α] (W : NMat (WithBot α))
    (T : Finset (ℕ × ℕ)) (hTsub : T ⊆ ((graphOf W).map Prod.fst).toFinset)
    (hTtight : Tight (graphNodes W) T) (w : α) :
    (((graphOf W).filter (fun ent => decide (ent.1 ∈ T))).filter
        (fun ent => decide (w ≤ ent.2))).length ≤
      ((kruskal (graphOf W)).filter (fun ent => decide (w ≤ ent.2))).length := by
  set G := graphOf W with hGdef
  set V := graphNodes W with hVdef
  set L := List.insertionSort wtGE G with hLdef
  set p := (fun ent : (ℕ × ℕ) × α => decide (w ≤ ent.2)) with hpdef
  set L1 := L.takeWhile p with hL1def
  have hperm : L.Perm G := List.perm_insertionSort wtGE G
  have hsort : List.Sorted wtGE L := List.sorted_insertionSort wtGE G
  have hGnodup : (G.map Prod.fst).Nodup := graphFold_nodup W _ [] (by simp)
  have hLV : ∀ ent ∈ L, ent.1.1 ∈ V ∧ ent.1.2 ∈ V :=
    fun ent hent => ent_ends_mem_graphNodes (hperm.mem_iff.mp hent)
  have hsplit : L = L1 ++ L.dropWhile p := (List.takeWhile_append_dropWhile ..).symm
  have hL1V : ∀ ent ∈ L1, ent.1.1 ∈ V ∧ ent.1.2 ∈ V := by
    intro ent hent
    apply hLV
    rw [hsplit]
    exact List.mem_append_left _ hent
  have gs1 : GoodState V L1 (L1.foldl kruskalStep (id, [])) := by
    have h0 := goodState_fold V L1 [] (id, []) hL1V (goodState_init V)
    simpa using h0
  obtain ⟨extra, hex, hextra⟩ := kruskalFold_chosen_extend (L.dropWhile p)
    (L1.foldl kruskalStep (id, []))
  have hKeq : kruskal G = (L1.foldl kruskalStep (id, [])).2 ++ extra := by
    show (L.foldl kruskalStep (id, [])).2 = _
    conv_lhs => rw [hsplit]
    rw [List.foldl_append]
    exact hex
  have hmidw : ∀ ent ∈ (L1.foldl kruskalStep (id, [])).2, p ent = true :=
    fun ent hent => List.mem_takeWhile_imp (gs1.sub.subset hent)
  have hextraw : ∀ ent ∈ extra, ¬ p ent = true := by
    intro ent hent
    have hmem : ent ∈ L.dropWhile p := hextra.subset hent
    have hlt := dropWhile_weight_lt w L hsort ent hmem
    rw [hpdef]
    simp only [decide_eq_true_eq]
    exact not_le.mpr hlt
  have hKcount : ((kruskal G).filter p).length = (L1.foldl kruskalStep (id, [])).2.length := by
    rw [hKeq, List.filter_append, List.filter_eq_self.mpr hmidw,
      List.filter_eq_nil_iff.mpr hextraw]
    simp
  set TLw := (G.filter (fun ent => decide (ent.1 ∈ T))).filter p with hTLwdef
  have hTLwsubG : TLw.Sublist G := (List.filter_sublist _).trans (List.filter_sublist G)
  have hTLwnodup : (TLw.map Prod.fst).Nodup := hGnodup.sublist (hTLwsubG.map Prod.fst)
  have hF2card : (TLw.map Prod.fst).toFinset.card = TLw.length := by
    rw [List.toFinset_card_of_nodup hTLwnodup, List.length_map]
  have hTV : ∀ e ∈ T, e.1 ∈ V ∧ e.2 ∈ V := fun e he =>
    key_ends_mem_graphNodes (List.mem_toFinset.mp (hTsub he))
  have hF2subT : (TLw.map Prod.fst).toFinset ⊆ T := by
    intro k hk
    rcases List.mem_map.mp (List.mem_toFinset.mp hk) with ⟨ent, hent, hkey⟩
    have hent1 := (List.mem_filter.mp hent).1
    have hent2 := (List.mem_filter.mp hent1).2
    rw [← hkey]
    exact of_decide_eq_true hent2
  have hF2tight : Tight V (TLw.map Prod.fst).toFinset :=
    tight_subset hF2subT hTV hTtight
  have hF1tight : Tight V (((L1.foldl kruskalStep (id, [])).2.map Prod.fst).toFinset) :=
    gs1.tight
  have hF1card : (((L1.foldl kruskalStep (id, [])).2.map Prod.fst).toFinset).card
      = (L1.foldl kruskalStep (id, [])).2.length := by
    rw [List.toFinset_card_of_nodup gs1.nodup, List.length_map]
  have hbound : TLw.length ≤ (L1.foldl kruskalStep (id, [])).2.length := by
    by_contra hlt
    rw [not_le] at hlt
    obtain ⟨e, heF2, hneconn⟩ := tight_exchange hF1tight hF2tight (by omega)
    rcases List.mem_map.mp (List.mem_toFinset.mp heF2) with ⟨ent, hentTLw, hkey⟩
    have hentG : ent ∈ G := hTLwsubG.subset hentTLw
    have hentw : p ent = true := (List.mem_filter.mp hentTLw).2
    have hentL : ent ∈ L := hperm.mem_iff.mpr hentG
    have hentL1 : ent ∈ L1 := by
      have hentL' := hentL
      rw [hsplit] at hentL'
      rcases List.mem_append.mp hentL' with h | h
      · exact h
      · exfalso
        have hlt2 := dropWhile_weight_lt w L hsort ent h
        rw [hpdef] at hentw
        simp only [decide_eq_true_eq] at hentw
        exact absurd hentw (not_le.mpr hlt2)
    have hconnF1 := gs1.proc_conn ent hentL1
    rw [hkey] at hconnF1
    exact hneconn hconnF1
  rw [hKcount]
  exact hbound

theorem countP_snd_eq_filter_length {α : Type} [LinearOrder α] (l : List ((ℕ × ℕ) × α))
    (w : α) :
    (l.map Prod.snd).countP (fun x => decide (w ≤ x)) =
      (l.filter (fun ent => decide (w ≤ ent.2))).length := by
  rw [List.countP_map]
  rw [show ((fun x => decide (w ≤ x)) ∘ Prod.snd : (ℕ × ℕ) × α → Bool) =
    (fun ent => decide (w ≤ ent.2)) from rfl]
  exact List.countP_eq_length_filter ..

/-- C2: for every weight matrix whose derived graph is connected, `get_mst`
returns a spanning tree of that graph — its edges are graph edges, they
connect all graph nodes, and there are exactly (number of graph nodes − 1) of
them — and the sum of the selected edge weights is at least the total weight
of every other spanning tree of the graph (any same-cardinality spanning
subset of the graph's edge keys). -/
theorem get_mst_spanning_and_maximal {α : Type} [LinearOrderedAddCommMonoid α]
    (W : NMat (WithBot α))
    (hconn : ∀ u ∈ graphNodes W, ∀ v ∈ graphNodes W,
      connIn ((graphOf W).map Prod.fst).toFinset u v) :
    (get_mst W).length = (graphNodes W).card - 1 ∧
    (∀ e ∈ get_mst W, e ∈ (graphOf W).map Prod.fst) ∧
    (∀ u ∈ graphNodes W, ∀ v ∈ graphNodes W, connIn (get_mst W).toFinset u v) ∧
    (∀ T : Finset (ℕ × ℕ), T ⊆ ((graphOf W).map Prod.fst).toFinset →
      (∀ u ∈ graphNodes W, ∀ v ∈ graphNodes W, connIn T u v) →
      T.card = (graphNodes W).card - 1 →
      (((graphOf W).filter (fun ent => decide (ent.1 ∈ T))).map Prod.snd).sum ≤
        ((kruskal (graphOf W)).map Prod.snd).sum) := by
  set G := graphOf W with hGdef
  set V := graphNodes W with hVdef
  set L := List.insertionSort wtGE G with hLdef
  have hperm : L.Perm G := List.perm_insertionSort wtGE G
  have hsort : List.Sorted wtGE L := List.sorted_insertionSort wtGE G
  have hLV : ∀ ent ∈ L, ent.1.1 ∈ V ∧ ent.1.2 ∈ V :=
    fun ent hent => ent_ends_mem_graphNodes (hperm.mem_iff.mp hent)
  have gs : GoodState V L (L.foldl kruskalStep (id, [])) := by
    have h0 := goodState_fold V L [] (id, []) hLV (goodState_init V)
    simpa using h0
  have hKdef : kruskal G = (L.foldl kruskalStep (id, [])).2 := rfl
  have hKsubL : (kruskal G).Sublist L := by rw [hKdef]; exact gs.sub
  have hKnodup : ((kruskal G).map Prod.fst).Nodup := by rw [hKdef]; exact gs.nodup
  have hKtight : Tight V (((kruskal G).map Prod.fst).toFinset) := by
    rw [hKdef]; exact gs.tight
  have hKmemG : ∀ ent ∈ kruskal G, ent ∈ G :=
    fun ent hent => hperm.mem_iff.mp (hKsubL.subset hent)
  have hgetmst : get_mst W = (kruskal G).map Prod.fst := rfl
  have hconnK : ∀ u ∈ V, ∀ v ∈ V, connIn (((kruskal G).map Prod.fst).toFinset) u v := by
    intro u hu v hv
    refine connIn_le_of_edges ?_ (hconn u hu v hv)
    intro e he
    rcases List.mem_map.mp (List.mem_toFinset.mp he) with ⟨ent, hentG, hkey⟩
    have hc := gs.proc_conn ent (hperm.mem_iff.mpr hentG)
    rw [hKdef, ← hkey]
    exact hc
  by_cases hVne : V.Nonempty
  · have hKlead : (leaders V (((kruskal G).map Prod.fst).toFinset)).card = 1 :=
      leaders_card_of_conn_total hVne hconnK
    have hKlen : (kruskal G).length = V.card - 1 := by
      have hc1 : (((kruskal G).map Prod.fst).toFinset).card = (kruskal G).length := by
        rw [List.toFinset_card_of_nodup hKnodup, List.length_map]
      unfold Tight at hKtight
      omega
    refine ⟨?_, ?_, ?_, ?_⟩
    · rw [hgetmst, List.length_map]
      exact hKlen
    · intro e he
      rw [hgetmst] at he
      rcases List.mem_map.mp he with ⟨ent, hent, hkey⟩
      rw [← hkey]
      exact List.mem_map_of_mem Prod.fst (hKmemG ent hent)
    · intro u hu v hv
      rw [hgetmst]
      exact hconnK u hu v hv
    · intro T hTsub hTconn hTcard
      have hTlead : (leaders V T).card = 1 := leaders_card_of_conn_total hVne hTconn
      have hVpos : 1 ≤ V.card := Finset.card_pos.mpr hVne
      have hTtight : Tight V T := by unfold Tight; omega
      set TL := G.filter (fun ent => decide (ent.1 ∈ T)) with hTLdef
      have hTLsubG : TL.Sublist G := List.filter_sublist G
      have hGnodup : (G.map Prod.fst).Nodup := graphFold_nodup W _ [] (by simp)
      have hTLnodup : (TL.map Prod.fst).Nodup := hGnodup.sublist (hTLsubG.map Prod.fst)
      have hTLkeys : (TL.map Prod.fst).toFinset = T := by
        ext k
        constructor
        · intro hk
          rcases List.mem_map.mp (List.mem_toFinset.mp hk) with ⟨ent, hent, hkey⟩
          rw [← hkey]
          exact of_decide_eq_true (List.mem_filter.mp hent).2
        · intro hk
          rw [List.mem_toFinset]
          rcases List.mem_map.mp (List.mem_toFinset.mp (hTsub hk)) with ⟨ent, hentG, hkey⟩
          refine List.mem_map.mpr ⟨ent, ?_, hkey⟩
          rw [hTLdef]
          refine List.mem_filter.mpr ⟨hentG, ?_⟩
          rw [hkey]
          exact decide_eq_true hk
      have hTLlen : TL.length = T.card := by
        rw [← hTLkeys, List.toFinset_card_of_nodup hTLnodup, List.length_map]
      set xs := List.insertionSort wGE (TL.map Prod.snd) with hxsdef
      set ys := (kruskal G).map Prod.snd with hysdef
      have hxs_perm : xs.Perm (TL.map Prod.snd) := List.perm_insertionSort wGE _
      have hxs_sorted : List.Sorted wGE xs := List.sorted_insertionSort wGE _
      have hKsorted : List.Sorted wtGE (kruskal G) := List.Pairwise.sublist hKsubL hsort
      have hys_sorted : List.Sorted wGE ys := by
        rw [hysdef]
        exact List.Pairwise.map Prod.snd (fun a b h => h) hKsorted
      have hlen : xs.length = ys.length := by
        rw [hxs_perm.length_eq, hysdef, List.length_map, List.length_map, hTLlen,
          hKlen, hTcard]
      have hcounts : ∀ w, xs.countP (fun x => decide (w ≤ x)) ≤
          ys.countP (fun x => decide (w ≤ x)) := by
        intro w
        rw [hxs_perm.countP_eq, hysdef, countP_snd_eq_filter_length,
          countP_snd_eq_filter_length]
        exact kruskal_count_dominates W T hTsub hTtight w
      have hsum := sorted_count_dominates_sum xs ys hxs_sorted hys_sorted hlen hcounts
      rw [← hxs_perm.sum_eq] at *
      exact hsum
  · have hGnil : G = [] := by
      rw [List.eq_nil_iff_forall_not_mem]
      intro ent hent
      exact hVne ⟨ent.1.1, (ent_ends_mem_graphNodes hent).1⟩
    have hVemp : V = ∅ := Finset.not_nonempty_iff_eq_empty.mp hVne
    have hKnil : kruskal G = [] := by
      rw [hKdef, hLdef, hGnil]
      rfl
    refine ⟨?_, ?_, ?_, ?_⟩
    · rw [hgetmst, hKnil, hVemp]
      simp
    · intro e he
      rw [hgetmst, hKnil] at he
      simp at he
    · intro u hu
      rw [hVemp] at hu
      simp at hu
    · intro T hTsub _ _
      rw [hKnil, hGnil]
      simp

theorem get_mst_spanning_and_maximal_witness :
    (∀ u ∈ graphNodes (⟨3, fun _ _ => ((1 : ℤ) : WithBot ℤ)⟩ : NMat (WithBot ℤ)),
      ∀ v ∈ graphNodes (⟨3, fun _ _ => ((1 : ℤ) : WithBot ℤ)⟩ : NMat (WithBot ℤ)),
        connIn ((graphOf (⟨3, fun _ _ => ((1 : ℤ) : WithBot ℤ)⟩ :
          NMat (WithBot ℤ))).map Prod.fst).toFinset u v) ∧
    (get_mst (⟨3, fun _ _ => ((1 : ℤ) : WithBot ℤ)⟩ : NMat (WithBot ℤ))).length =
      (graphNodes (⟨3, fun _ _ => ((1 : ℤ) : WithBot ℤ)⟩ : NMat (WithBot ℤ))).card - 1 := by
  have hc : ∀ u ∈ graphNodes (⟨3, fun _ _ => ((1 : ℤ) : WithBot ℤ)⟩ : NMat (WithBot ℤ)),
      ∀ v ∈ graphNodes (⟨3, fun _ _ => ((1 : ℤ) : WithBot ℤ)⟩ : NMat (WithBot ℤ)),
        connIn ((graphOf (⟨3, fun _ _ => ((1 : ℤ) : WithBot ℤ)⟩ :
          NMat (WithBot ℤ))).map Prod.fst).toFinset u v := by
    intro u hu v hv
    have hV : graphNodes (⟨3, fun _ _ => ((1 : ℤ) : WithBot ℤ)⟩ : NMat (WithBot ℤ)) =
        {0, 1} := by decide
    have he : ((0, 1) : ℕ × ℕ) ∈ ((graphOf (⟨3, fun _ _ => ((1 : ℤ) : WithBot ℤ)⟩ :
        NMat (WithBot ℤ))).map Prod.fst).toFinset := by decide
    rw [hV] at hu hv
    fin_cases hu <;> fin_cases hv
    · exact connIn_refl 0
    · exact connIn_of_mem he
    · exact connIn_symm (connIn_of_mem he)
    · exact connIn_refl 1
  exact ⟨hc, (get_mst_spanning_and_maximal _ hc).1⟩

end HypGCN
